import Mathlib

/-!
# Node paths and matchers of `pkg/edit/complete/node_utils.go`

A shallow embedding of the completion-context helpers of elvish: the node path
builder `findNodePath`, the matcher combinators (`nodePath.match`,
`typeMatcher`, `storeMatcher`, `simplePrimaryMatcher`) and the theorems that
relate them to the documented behaviour.

Syntax nodes live in package `parse`; a node is a pointer to a record that
carries its dynamic type, its source range, its parent link and its child
list. Pointers are addresses (`Nat`), the parse tree is a heap that maps an
address to the record stored there, and a nil pointer is `none`.
-/

namespace Elvish

/-- Modelled from the spec: the grammar kinds of package `parse` (the dynamic
type of a `parse.Node`), which the source compares with `reflect.TypeOf`. -/
inductive Kind
  | Chunk
  | Pipeline
  | Form
  | Array
  | Compound
  | Indexing
  | Primary
  | Redir
  | Sep
  | MapPair
  | Filter
  deriving DecidableEq, Repr

/-- A non-nil `parse.Node`: the address of the node record. Two nodes are the
same node exactly when their addresses are equal (Go's `==` on the interface
values). -/
abbrev Node := Nat

/-- Modelled from the spec: the record behind a `parse.Node`, as far as the
tree accessor interface exposes it (`Range`, `Parent`, `Children`) together
with the dynamic type. -/
structure NodeData where
  kind : Kind
  From : Int
  To : Int
  parent : Option Node
  children : List Node

/-- The parse tree as a heap of node records. -/
abbrev Tree := Node → NodeData

/-- The accessor `parse.Children(n)`. -/
def Children (T : Tree) (n : Node) : List Node := (T n).children

/-- The accessor `parse.Parent(n)`; `none` is the nil node. -/
def Parent (T : Tree) (n : Node) : Option Node := (T n).parent

/-- The type `nodePath []parse.Node`; the nil slice is the empty list. -/
abbrev nodePath := List Node

/-- How a run of the embedded code can fail to return: a call through a nil
node (a Go panic), or the fuel of a loop running out. -/
inductive Failure
  | nilDeref
  | outOfFuel
  deriving DecidableEq, Repr

/-- The test `rg.From <= p && p <= rg.To` of `findNodePath` on the range of
`ch`. -/
def contains (T : Tree) (ch : Node) (p : Int) : Prop :=
  (T ch).From ≤ p ∧ p ≤ (T ch).To

instance (T : Tree) (ch : Node) (p : Int) : Decidable (contains T ch p) :=
  inferInstanceAs (Decidable ((T ch).From ≤ p ∧ p ≤ (T ch).To))

/-- The inner loop of `findNodePath`: the first child, in child order, whose
range contains `p`; `none` when the loop falls through. -/
def firstChildAt (T : Tree) (p : Int) : List Node → Option Node
  | [] => none
  | ch :: rest => if contains T ch p then some ch else firstChildAt T p rest

/-- The loop labelled `descend` of `findNodePath`, one iteration per unit of
fuel: `ok (some n)` when it stops at a node without children, `ok none` when
it hits `return nil`. -/
def descend (T : Tree) (p : Int) : Nat → Node → Except Failure (Option Node)
  | 0, _ => .error .outOfFuel
  | fuel + 1, n =>
    if (Children T n).length > 0 then
      match firstChildAt T p (Children T n) with
      | some ch => descend T p fuel ch
      | none => .ok none
    else .ok (some n)

/-- The second loop of `findNodePath`: append `n`, stop at `root`, otherwise
move to the parent. A nil parent makes the next iteration call
`parse.Parent` on the nil node, which panics. -/
def climb (T : Tree) (root : Node) : Nat → Node → List Node → Except Failure (List Node)
  | 0, _, _ => .error .outOfFuel
  | fuel + 1, n, path =>
    if n = root then .ok (path ++ [n])
    else
      match Parent T n with
      | some q => climb T root fuel q (path ++ [n])
      | none => .error .nilDeref

/-- The function `findNodePath(root, p)`; each of its two loops gets `fuel`
iterations. -/
def findNodePath (T : Tree) (root : Node) (p : Int) (fuel : Nat) : Except Failure nodePath :=
  match descend T p fuel root with
  | .error e => .error e
  | .ok none => .ok []
  | .ok (some n) => climb T root fuel n []

/-- Modelled from the spec: the interface `PureEvaler` of package `complete`
(declared outside this file), the side-effect-free evaluator that the
matchers and `purelyEvalForm` call. Both operations return `(value, ok)`. -/
structure PureEvaler where
  PurelyEvalPartialCompound : Node → Int → String × Bool
  PurelyEvalCompound : Node → String × Bool

/-- The struct `typeMatcher`. -/
structure typeMatcher where
  typ : Kind

/-- The function `typed(n)`: the argument is only used for its dynamic type,
which is what `k` stands for. -/
def typed (k : Kind) : typeMatcher := ⟨k⟩

/-- The method `typeMatcher.match`. -/
def typeMatcher_match (T : Tree) (m : typeMatcher) (ns : List Node) : List Node × Bool :=
  match ns with
  | n :: rest => if (T n).kind = m.typ then (rest, true) else ([], false)
  | [] => ([], false)

/-- A capture slot as `store` receives it: a pointer to a caller variable
whose static type is pointer-to-`typ`. -/
structure Slot where
  addr : Nat
  typ : Kind

/-- The struct `storeMatcher`: the settable destination `p` and its type. -/
structure storeMatcher where
  p : Nat
  typ : Kind

/-- The function `store(p)`: the expected type is the type of the slot. -/
def store (p : Slot) : storeMatcher := ⟨p.addr, p.typ⟩

/-- The struct `simplePrimaryMatcher`; `compound` and `primary` start nil. -/
structure simplePrimaryMatcher where
  ev : PureEvaler
  s : String
  compound : Option Node
  primary : Option Node

/-- The function `simplePrimaryExpr(ev)`, as the value of the fresh struct. -/
def simplePrimaryExpr (ev : PureEvaler) : simplePrimaryMatcher := ⟨ev, "", none, none⟩

/-- The memory that matchers write: the capture slots of the caller, by
address, and the `simplePrimaryMatcher` structs, by address. -/
structure Memory where
  slot : Nat → Option Node
  spm : Nat → simplePrimaryMatcher

/-- The method `storeMatcher.match`: on a type match it sets the slot. -/
def storeMatcher_match (T : Tree) (m : storeMatcher) (ns : List Node) (mem : Memory) :
    (List Node × Bool) × Memory :=
  match ns with
  | n :: rest =>
    if (T n).kind = m.typ then
      ((rest, true), { mem with slot := Function.update mem.slot m.p (some n) })
    else (([], false), mem)
  | [] => (([], false), mem)

/-- The method `simplePrimaryMatcher.match` on the receiver `m`; the second
component is the receiver after the call. -/
def simplePrimaryMatcher_match (T : Tree) (m : simplePrimaryMatcher) (ns : List Node) :
    (List Node × Bool) × simplePrimaryMatcher :=
  match ns with
  | primary :: indexing :: compound :: rest =>
    if (T primary).kind = Kind.Primary then
      if (T indexing).kind = Kind.Indexing then
        if (T compound).kind = Kind.Compound then
          match m.ev.PurelyEvalPartialCompound compound (T indexing).To with
          | (s, true) =>
            ((rest, true), { m with primary := some primary, compound := some compound, s := s })
          | (_, false) => (([], false), m)
        else (([], false), m)
      else (([], false), m)
    else (([], false), m)
  | _ => (([], false), m)

/-- The interface `matcher`, implemented in this file by `typeMatcher`,
`storeMatcher` and `*simplePrimaryMatcher` (a pointer, here an address). -/
inductive matcher
  | type (m : typeMatcher)
  | store (m : storeMatcher)
  | simplePrimary (ptr : Nat)

/-- The call `m.match(ns)` through the interface. -/
def matcher_match (T : Tree) (m : matcher) (ns : List Node) (mem : Memory) :
    (List Node × Bool) × Memory :=
  match m with
  | .type tm => (typeMatcher_match T tm ns, mem)
  | .store sm => storeMatcher_match T sm ns mem
  | .simplePrimary ptr =>
    let r := simplePrimaryMatcher_match T (mem.spm ptr) ns
    (r.1, { mem with spm := Function.update mem.spm ptr r.2 })

/-- The method `nodePath.match(ms...)`, with the memory after the call. -/
def nodePath_match (T : Tree) (ns : nodePath) (ms : List matcher) (mem : Memory) :
    Bool × Memory :=
  match ms with
  | [] => (true, mem)
  | m :: rest =>
    match matcher_match T m ns mem with
    | ((ns2, true), mem2) => nodePath_match T ns2 rest mem2
    | ((_, false), mem2) => (false, mem2)

/-- Modelled from the spec: the helper `parent` of package `complete`
(declared outside this file), the immediate parent of a node. -/
def parent (T : Tree) (n : Node) : Option Node := Parent T n

/-- The function `primaryInSimpleCompound(pn, ev)`; a failed type assertion,
also on a nil parent, returns `(nil, "")`. -/
def primaryInSimpleCompound (T : Tree) (pn : Node) (ev : PureEvaler) : Option Node × String :=
  match parent T pn with
  | none => (none, "")
  | some indexing =>
    if (T indexing).kind = Kind.Indexing then
      match parent T indexing with
      | none => (none, "")
      | some compound =>
        if (T compound).kind = Kind.Compound then
          match ev.PurelyEvalPartialCompound compound (T indexing).To with
          | (head, true) => (some compound, head)
          | (_, false) => (none, "")
        else (none, "")
    else (none, "")

/-- Modelled from the spec: the fields of `parse.Form` that `purelyEvalForm`
reads, the head compound and the argument compounds in source order. -/
structure Form where
  Head : Node
  Args : List Node

/-- The loop over `form.Args` in `purelyEvalForm`. -/
def purelyEvalFormArgs (T : Tree) (upto : Int) (ev : PureEvaler) :
    List Node → List String → List String
  | [], words => words
  | compound :: rest, words =>
    if (T compound).From ≥ upto then words
    else
      match ev.PurelyEvalCompound compound with
      | (arg, true) => purelyEvalFormArgs T upto ev rest (words ++ [arg])
      | (_, false) => purelyEvalFormArgs T upto ev rest words

/-- The function `purelyEvalForm(form, seed, upto, ev)`. -/
def purelyEvalForm (T : Tree) (form : Form) (seed : String) (upto : Int) (ev : PureEvaler) :
    List String :=
  let head := (ev.PurelyEvalPartialCompound form.Head (-1)).1
  let words := [head]
  let words := purelyEvalFormArgs T upto ev form.Args words
  words ++ [seed]

/-! ## Vocabulary of the specification -/

/-- The node `n` is `a` or one of its descendants through child lists. -/
def Under (T : Tree) (a n : Node) : Prop :=
  Relation.ReflTransGen (fun x c => c ∈ Children T x) a n

/-- A leaf is a node without children. -/
def IsLeaf (T : Tree) (n : Node) : Prop := Children T n = []

instance (T : Tree) (n : Node) : Decidable (IsLeaf T n) :=
  inferInstanceAs (Decidable (Children T n = []))

/-- The subtree under `n` is finite, of depth at most `h` (a leaf has depth 0). -/
def HeightLE (T : Tree) : Nat → Node → Prop
  | 0, n => Children T n = []
  | h + 1, n => ∀ c ∈ Children T n, HeightLE T h c

/-- The parent links agree with the child lists under `root`: every child of
a node under `root` has that node as its parent. -/
def ParentLinksAgree (T : Tree) (root : Node) : Prop :=
  ∀ n c, Under T root n → c ∈ Children T n → Parent T c = some n

/-- Each child's range lies within its parent's range, under `root`. -/
def RangesNested (T : Tree) (root : Node) : Prop :=
  ∀ n c, Under T root n → c ∈ Children T n →
    (T n).From ≤ (T c).From ∧ (T c).To ≤ (T n).To

/-- Sibling ranges do not overlap, under `root`: of two children of one node,
one ends where or before the other starts. -/
def SiblingsSeparated (T : Tree) (root : Node) : Prop :=
  ∀ n, Under T root n →
    (Children T n).Pairwise (fun a b => (T a).To ≤ (T b).From ∨ (T b).To ≤ (T a).From)

/-- No two siblings under `root` both contain the offset `p`. -/
def AtMostOneChildAt (T : Tree) (root : Node) (p : Int) : Prop :=
  ∀ n, Under T root n →
    (Children T n).Pairwise (fun a b => ¬ (contains T a p ∧ contains T b p))

/-- The children leave no gap at `p`, under `root`: a node with children whose
range contains `p` has a child whose range contains `p`. Two siblings may both
contain `p`, as at a boundary they share. -/
def NoGapAt (T : Tree) (root : Node) (p : Int) : Prop :=
  ∀ n, Under T root n → Children T n ≠ [] → contains T n p →
    ∃ c ∈ Children T n, contains T c p

/-- Every adjacent pair of the path is (node, its parent). -/
def ParentChain (T : Tree) (path : List Node) : Prop :=
  ∀ (i : Nat) (a b : Node), path[i]? = some a → path[i + 1]? = some b → Parent T a = some b

/-- The matchers of `ms`, run left to right on the progressively shrinking
path, all succeed and leave the remainder `ns'` and the memory `mem'`. -/
def SeqReaches (T : Tree) : List matcher → List Node → Memory → List Node → Memory → Prop
  | [], ns, mem, ns', mem' => ns' = ns ∧ mem' = mem
  | m :: ms, ns, mem, ns', mem' =>
    ∃ ns2 mem2, matcher_match T m ns mem = ((ns2, true), mem2) ∧ SeqReaches T ms ns2 mem2 ns' mem'

/-- The capture slots that the capturing matchers of `ms` name. -/
def slotsOf : List matcher → List Nat
  | [] => []
  | matcher.store sm :: ms => sm.p :: slotsOf ms
  | _ :: ms => slotsOf ms

/-! ## Concrete trees -/

/-- A four-node tree: the root 0 spans [0, 8] with the children 1 = [0, 4] and
2 = [4, 8]; node 1 has the single child 3 = [0, 2]; nodes 2 and 3 are leaves.
Offset 3 is a gap inside node 1, offset 4 is the boundary shared by 1 and 2. -/
def sampleTree : Tree
  | 0 => ⟨Kind.Chunk, 0, 8, none, [1, 2]⟩
  | 1 => ⟨Kind.Pipeline, 0, 4, some 0, [3]⟩
  | 2 => ⟨Kind.Sep, 4, 8, some 0, []⟩
  | 3 => ⟨Kind.Form, 0, 2, some 1, []⟩
  | _ => ⟨Kind.Sep, 0, 0, none, []⟩

/-- The tree of an empty document: every node is a leaf of range [0, 0]. -/
def emptyDoc : Tree := fun _ => ⟨Kind.Chunk, 0, 0, none, []⟩

/-- An evaluator that evaluates nothing. -/
def noEval : PureEvaler := ⟨fun _ _ => ("", false), fun _ => ("", false)⟩

/-- A memory with every slot empty. -/
def emptyMemory : Memory := ⟨fun _ => none, fun _ => simplePrimaryExpr noEval⟩

/-- The tree of the source text `echo foo ba` (offsets 0 to 11): Chunk 0,
Pipeline 1 and Form 2 span the text; the form has the children Compound 3
(`echo`), Sep 6, Compound 7 (`foo`), Sep 10 and Compound 11 (`ba`); each
compound holds one Indexing (4, 8, 12) that holds one Primary (5, 9, 13). -/
def echoTree : Tree
  | 0 => ⟨Kind.Chunk, 0, 11, none, [1]⟩
  | 1 => ⟨Kind.Pipeline, 0, 11, some 0, [2]⟩
  | 2 => ⟨Kind.Form, 0, 11, some 1, [3, 6, 7, 10, 11]⟩
  | 3 => ⟨Kind.Compound, 0, 4, some 2, [4]⟩
  | 4 => ⟨Kind.Indexing, 0, 4, some 3, [5]⟩
  | 5 => ⟨Kind.Primary, 0, 4, some 4, []⟩
  | 6 => ⟨Kind.Sep, 4, 5, some 2, []⟩
  | 7 => ⟨Kind.Compound, 5, 8, some 2, [8]⟩
  | 8 => ⟨Kind.Indexing, 5, 8, some 7, [9]⟩
  | 9 => ⟨Kind.Primary, 5, 8, some 8, []⟩
  | 10 => ⟨Kind.Sep, 8, 9, some 2, []⟩
  | 11 => ⟨Kind.Compound, 9, 11, some 2, [12]⟩
  | 12 => ⟨Kind.Indexing, 9, 11, some 11, [13]⟩
  | 13 => ⟨Kind.Primary, 9, 11, some 12, []⟩
  | _ => ⟨Kind.Sep, 0, 0, none, []⟩

/-- An evaluator for `echoTree`: each of the three compounds evaluates to its
bare word, whatever the bound. -/
def echoEval : PureEvaler :=
  ⟨fun c _ => if c = 3 then ("echo", true) else if c = 7 then ("foo", true)
      else if c = 11 then ("ba", true) else ("", false),
   fun c => if c = 3 then ("echo", true) else if c = 7 then ("foo", true)
      else if c = 11 then ("ba", true) else ("", false)⟩

/-- The path that `findNodePath` returns on `echoTree` at offset 11, the end of
the text: from the Primary of `ba` up to the Chunk. -/
def echoPath : nodePath := [13, 12, 11, 2, 1, 0]

/-! ## Vocabulary for the context helpers and the descent order -/

/-- The arguments that count for the cutoff `upto`: the longest prefix of the
argument list whose start offsets are below the cutoff. -/
def argsBefore (T : Tree) (upto : Int) (args : List Node) : List Node :=
  args.takeWhile (fun c => decide ((T c).From < upto))

/-- The values that `PurelyEvalCompound` returns with ok for the compounds of
`cs`, in order; a compound that is not purely evaluable gives no entry. -/
def evaluableValues (ev : PureEvaler) (cs : List Node) : List String :=
  cs.filterMap (fun c =>
    if (ev.PurelyEvalCompound c).2 = true then some (ev.PurelyEvalCompound c).1 else none)

/-- The head word of a form: the string `PurelyEvalPartialCompound` returns
for the head compound with no upper bound (-1). -/
def headWord (form : Form) (ev : PureEvaler) : String :=
  (ev.PurelyEvalPartialCompound form.Head (-1)).1

/-- Modelled from the spec: the convention of the evaluator behind
`PureEvaler` (package `eval`, outside this file) that a compound it cannot
purely evaluate comes back as the empty string together with not-ok; the
comment in `purelyEvalForm` relies on it (head will be the empty string). -/
def EmptyOnNotOk (ev : PureEvaler) : Prop :=
  ∀ c u, (ev.PurelyEvalPartialCompound c u).2 = false →
    (ev.PurelyEvalPartialCompound c u).1 = ""

/-- The node `a` is the first child of `b`, in child order, whose range
contains `p`: no child before it contains `p`; the children after it play no
part. -/
def IsFirstChildAt (T : Tree) (p : Int) (b a : Node) : Prop :=
  ∃ pre post, Children T b = pre ++ a :: post ∧ (∀ c ∈ pre, ¬ contains T c p) ∧
    contains T a p

/-- The node `n` is reached from `a` by taking, zero or more times, the first
child whose range contains `p`. -/
def Descends (T : Tree) (p : Int) (a n : Node) : Prop :=
  Relation.ReflTransGen (fun x c => firstChildAt T p (Children T x) = some c) a n

/-- The Form of `echoTree`: head `echo`, arguments `foo` and `ba`. -/
def echoForm : Form := ⟨3, [7, 11]⟩

/-- The tree of the source text `echo $x foo` (offsets 0 to 11), of the same
shape as `echoTree`: Compound 7 is `$x` = [5, 7], Compound 11 is `foo` =
[8, 11]. -/
def dollarTree : Tree
  | 0 => ⟨Kind.Chunk, 0, 11, none, [1]⟩
  | 1 => ⟨Kind.Pipeline, 0, 11, some 0, [2]⟩
  | 2 => ⟨Kind.Form, 0, 11, some 1, [3, 6, 7, 10, 11]⟩
  | 3 => ⟨Kind.Compound, 0, 4, some 2, [4]⟩
  | 4 => ⟨Kind.Indexing, 0, 4, some 3, [5]⟩
  | 5 => ⟨Kind.Primary, 0, 4, some 4, []⟩
  | 6 => ⟨Kind.Sep, 4, 5, some 2, []⟩
  | 7 => ⟨Kind.Compound, 5, 7, some 2, [8]⟩
  | 8 => ⟨Kind.Indexing, 5, 7, some 7, [9]⟩
  | 9 => ⟨Kind.Primary, 5, 7, some 8, []⟩
  | 10 => ⟨Kind.Sep, 7, 8, some 2, []⟩
  | 11 => ⟨Kind.Compound, 8, 11, some 2, [12]⟩
  | 12 => ⟨Kind.Indexing, 8, 11, some 11, [13]⟩
  | 13 => ⟨Kind.Primary, 8, 11, some 12, []⟩
  | _ => ⟨Kind.Sep, 0, 0, none, []⟩

/-- An evaluator for `dollarTree`: `echo` and `foo` evaluate to themselves,
the variable `$x` is not purely evaluable. -/
def dollarEval : PureEvaler :=
  ⟨fun c _ => if c = 3 then ("echo", true) else if c = 11 then ("foo", true) else ("", false),
   fun c => if c = 3 then ("echo", true) else if c = 11 then ("foo", true) else ("", false)⟩

/-- An evaluator that reports not-ok together with a non-empty string. -/
def markEval : PureEvaler := ⟨fun _ _ => ("?", false), fun _ => ("?", false)⟩

/-! ## The inner loop -/

theorem firstChildAt_some {T : Tree} {p : Int} {l : List Node} {c : Node}
    (h : firstChildAt T p l = some c) : c ∈ l ∧ contains T c p := by
  induction l with
  | nil => simp [firstChildAt] at h
  | cons a l ih =>
    unfold firstChildAt at h
    split at h
    · rename_i ha
      cases h
      exact ⟨List.mem_cons_self _ _, ha⟩
    · exact ⟨List.mem_cons_of_mem _ (ih h).1, (ih h).2⟩

theorem firstChildAt_none {T : Tree} {p : Int} {l : List Node}
    (h : firstChildAt T p l = none) : ∀ c ∈ l, ¬ contains T c p := by
  induction l with
  | nil => intro c hc; cases hc
  | cons a l ih =>
    unfold firstChildAt at h
    split at h
    · cases h
    · rename_i ha
      intro c hc
      rcases List.mem_cons.1 hc with rfl | hc
      · exact ha
      · exact ih h c hc

theorem firstChildAt_of_forall_not {T : Tree} {p : Int} {l : List Node}
    (h : ∀ c ∈ l, ¬ contains T c p) : firstChildAt T p l = none := by
  induction l with
  | nil => rfl
  | cons a l ih =>
    unfold firstChildAt
    rw [if_neg (h a (List.mem_cons_self _ _))]
    exact ih (fun c hc => h c (List.mem_cons_of_mem _ hc))

/-- When no two elements of the list both contain `p`, the loop finds any
element that contains `p`. -/
theorem firstChildAt_unique {T : Tree} {p : Int} {l : List Node} {c : Node}
    (hpw : l.Pairwise (fun a b => ¬ (contains T a p ∧ contains T b p)))
    (hc : c ∈ l) (hp : contains T c p) : firstChildAt T p l = some c := by
  induction l with
  | nil => cases hc
  | cons a l ih =>
    rw [List.pairwise_cons] at hpw
    unfold firstChildAt
    rcases List.mem_cons.1 hc with rfl | hcl
    · rw [if_pos hp]
    · by_cases ha : contains T a p
      · exact absurd ⟨ha, hp⟩ (hpw.1 c hcl)
      · rw [if_neg ha]
        exact ih hpw.2 hcl

/-! ## The descent -/

theorem heightLE_succ {T : Tree} : ∀ (h : Nat) (n : Node), HeightLE T h n → HeightLE T (h + 1) n
  | 0, n, hn => by
    intro c hc
    have : Children T n = [] := hn
    rw [this] at hc
    cases hc
  | h + 1, n, hn => by
    intro c hc
    exact heightLE_succ h c (hn c hc)

theorem heightLE_mono {T : Tree} {h k : Nat} {n : Node} (hk : h ≤ k) (hn : HeightLE T h n) :
    HeightLE T k n := by
  induction hk with
  | refl => exact hn
  | step _ ih => exact heightLE_succ _ _ ih

/-- On a finite subtree the descent returns once the fuel exceeds the depth. -/
theorem descend_ok {T : Tree} {p : Int} :
    ∀ (h fuel : Nat) (n : Node), HeightLE T h n → h < fuel → ∃ r, descend T p fuel n = .ok r
  | _, 0, _, _, hf => absurd hf (Nat.not_lt_zero _)
  | 0, fuel + 1, n, hn, _ => by
    have hn0 : Children T n = [] := hn
    refine ⟨some n, ?_⟩
    unfold descend
    simp [hn0]
  | h + 1, fuel + 1, n, hn, hf => by
    unfold descend
    split
    · split
      · rename_i ch hch
        exact descend_ok h fuel ch (hn ch (firstChildAt_some hch).1) (Nat.lt_of_succ_lt_succ hf)
      · exact ⟨none, rfl⟩
    · exact ⟨some n, rfl⟩

/-- A node that the descent stops at is a leaf under the start node; unless it
is the start node itself, its range contains `p`. -/
theorem descend_some {T : Tree} {p : Int} :
    ∀ (fuel : Nat) (n l : Node), descend T p fuel n = .ok (some l) →
      Under T n l ∧ IsLeaf T l ∧ (l = n ∨ contains T l p)
  | 0, n, l, h => by simp [descend] at h
  | fuel + 1, n, l, h => by
    unfold descend at h
    split at h
    · split at h
      · rename_i ch hch
        have ih := descend_some fuel ch l h
        have hc := firstChildAt_some hch
        refine ⟨Relation.ReflTransGen.head hc.1 ih.1, ih.2.1, Or.inr ?_⟩
        rcases ih.2.2 with rfl | h2
        · exact hc.2
        · exact h2
      · cases h
    · rename_i hlen
      cases h
      refine ⟨Relation.ReflTransGen.refl, ?_, Or.inl rfl⟩
      unfold IsLeaf
      exact List.length_eq_zero.1 (Nat.eq_zero_of_not_pos hlen)

/-- A descent that starts at a node with children and stops at a leaf stops
at a leaf whose range contains `p`. -/
theorem descend_some_contains {T : Tree} {p : Int} {fuel : Nat} {n l : Node}
    (hn : Children T n ≠ []) (h : descend T p fuel n = .ok (some l)) : contains T l p := by
  have hs := descend_some fuel n l h
  rcases hs.2.2 with rfl | hc
  · exact absurd hs.2.1 hn
  · exact hc

theorem under_child {T : Tree} {n c : Node} (hc : c ∈ Children T n) : Under T n c :=
  Relation.ReflTransGen.single hc

theorem under_trans {T : Tree} {a b c : Node} (hab : Under T a b) (hbc : Under T b c) :
    Under T a c :=
  Relation.ReflTransGen.trans hab hbc

theorem rangesNested_under {T : Tree} {a b : Node} (hab : Under T a b)
    (h : RangesNested T a) : RangesNested T b :=
  fun n c hn hc => h n c (under_trans hab hn) hc

theorem siblingsSeparated_under {T : Tree} {a b : Node} (hab : Under T a b)
    (h : SiblingsSeparated T a) : SiblingsSeparated T b :=
  fun n hn => h n (under_trans hab hn)

theorem atMostOneChildAt_under {T : Tree} {p : Int} {a b : Node} (hab : Under T a b)
    (h : AtMostOneChildAt T a p) : AtMostOneChildAt T b p :=
  fun n hn => h n (under_trans hab hn)

theorem parentLinksAgree_under {T : Tree} {a b : Node} (hab : Under T a b)
    (h : ParentLinksAgree T a) : ParentLinksAgree T b :=
  fun n c hn hc => h n c (under_trans hab hn) hc

/-- With nested ranges, the range of a node lies within the range of every
node it is under. -/
theorem under_range {T : Tree} {a n : Node} (hnest : RangesNested T a) (h : Under T a n) :
    (T a).From ≤ (T n).From ∧ (T n).To ≤ (T a).To := by
  induction h with
  | refl => exact ⟨le_refl _, le_refl _⟩
  | tail hm hc ih =>
    have := hnest _ _ hm hc
    exact ⟨le_trans ih.1 this.1, le_trans this.2 ih.2⟩

/-- Among separated siblings, the loop finds the one that has `p` strictly
inside its range. -/
theorem firstChildAt_strict {T : Tree} {p : Int} {l : List Node} {c : Node}
    (hpw : l.Pairwise (fun a b => (T a).To ≤ (T b).From ∨ (T b).To ≤ (T a).From))
    (hc : c ∈ l) (h1 : (T c).From < p) (h2 : p < (T c).To) :
    firstChildAt T p l = some c := by
  induction l with
  | nil => cases hc
  | cons a l ih =>
    rw [List.pairwise_cons] at hpw
    unfold firstChildAt
    rcases List.mem_cons.1 hc with rfl | hcl
    · rw [if_pos ⟨le_of_lt h1, le_of_lt h2⟩]
    · have ha : ¬ contains T a p := by
        intro hcon
        rcases hpw.1 c hcl with h | h
        · exact absurd (lt_of_le_of_lt (le_trans hcon.2 h) h1) (lt_irrefl _)
        · exact absurd (lt_of_lt_of_le (lt_of_lt_of_le h2 h) hcon.1) (lt_irrefl _)
      rw [if_neg ha]
      exact ih hpw.2 hcl

/-- With nested ranges and separated siblings, the descent reaches the leaf
that has `p` strictly inside its range. -/
theorem descend_reaches {T : Tree} {p : Int} {L : Node} (hleaf : IsLeaf T L)
    (h1 : (T L).From < p) (h2 : p < (T L).To) :
    ∀ (h fuel : Nat) (n : Node), HeightLE T h n → h < fuel → RangesNested T n →
      SiblingsSeparated T n → Under T n L → descend T p fuel n = .ok (some L)
  | _, 0, _, _, hf, _, _, _ => absurd hf (Nat.not_lt_zero _)
  | h, fuel + 1, n, hn, hf, hnest, hsep, hu => by
    rcases Relation.ReflTransGen.cases_head hu with heq | ⟨c, hc, hcL⟩
    · subst heq
      unfold descend
      have : Children T n = [] := hleaf
      simp [this]
    · have hc2 : c ∈ Children T n := hc
      have hne : (Children T n).length > 0 := List.length_pos_of_mem hc2
      cases h with
      | zero =>
        have : Children T n = [] := hn
        rw [this] at hc2
        cases hc2
      | succ h =>
        have hr := under_range (rangesNested_under (under_child hc2) hnest) hcL
        have hfirst : firstChildAt T p (Children T n) = some c :=
          firstChildAt_strict (hsep n Relation.ReflTransGen.refl) hc2
            (lt_of_le_of_lt hr.1 h1) (lt_of_lt_of_le h2 hr.2)
        unfold descend
        rw [if_pos hne, hfirst]
        exact descend_reaches hleaf h1 h2 h fuel c (hn c hc2) (Nat.lt_of_succ_lt_succ hf)
          (rangesNested_under (under_child hc2) hnest)
          (siblingsSeparated_under (under_child hc2) hsep) hcL

/-- When no two siblings both contain `p` and ranges are nested, the descent
reaches any leaf whose range contains `p`. -/
theorem descend_reaches_at {T : Tree} {p : Int} {L : Node} (hleaf : IsLeaf T L)
    (hp : contains T L p) :
    ∀ (h fuel : Nat) (n : Node), HeightLE T h n → h < fuel → RangesNested T n →
      AtMostOneChildAt T n p → Under T n L → descend T p fuel n = .ok (some L)
  | _, 0, _, _, hf, _, _, _ => absurd hf (Nat.not_lt_zero _)
  | h, fuel + 1, n, hn, hf, hnest, hone, hu => by
    rcases Relation.ReflTransGen.cases_head hu with heq | ⟨c, hc, hcL⟩
    · subst heq
      unfold descend
      have : Children T n = [] := hleaf
      simp [this]
    · have hc2 : c ∈ Children T n := hc
      have hne : (Children T n).length > 0 := List.length_pos_of_mem hc2
      cases h with
      | zero =>
        have : Children T n = [] := hn
        rw [this] at hc2
        cases hc2
      | succ h =>
        have hr := under_range (rangesNested_under (under_child hc2) hnest) hcL
        have hfirst : firstChildAt T p (Children T n) = some c :=
          firstChildAt_unique (hone n Relation.ReflTransGen.refl) hc2
            ⟨le_trans hr.1 hp.1, le_trans hp.2 hr.2⟩
        unfold descend
        rw [if_pos hne, hfirst]
        exact descend_reaches_at hleaf hp h fuel c (hn c hc2) (Nat.lt_of_succ_lt_succ hf)
          (rangesNested_under (under_child hc2) hnest)
          (atMostOneChildAt_under (under_child hc2) hone) hcL

/-! ## The walk along parent links -/

theorem parentChain_of_chain {T : Tree} :
    ∀ (path : List Node), List.Chain' (fun a b => Parent T a = some b) path → ParentChain T path
  | [], _ => by
    intro i a b ha _
    simp at ha
  | x :: t, hch => by
    intro i a b ha hb
    cases i with
    | zero =>
      cases t with
      | nil => simp at hb
      | cons y t2 =>
        simp at ha hb
        subst ha; subst hb
        exact (List.chain'_cons.1 hch).1
    | succ i =>
      have ht : List.Chain' (fun a b => Parent T a = some b) t := List.Chain'.tail hch
      simp at ha hb
      exact parentChain_of_chain t ht i a b ha (by simpa using hb)

/-- What the walk returns: the nodes appended start with the start node, end
with `root`, and each is followed by its parent. -/
theorem climb_spec {T : Tree} {root : Node} :
    ∀ (fuel : Nat) (n : Node) (acc res : List Node), climb T root fuel n acc = .ok res →
      ∃ path, res = acc ++ path ∧ path.head? = some n ∧ path.getLast? = some root ∧
        List.Chain' (fun a b => Parent T a = some b) path ∧ path.length ≤ fuel
  | 0, n, acc, res, h => by simp [climb] at h
  | fuel + 1, n, acc, res, h => by
    unfold climb at h
    split at h
    · rename_i hroot
      cases h
      exact ⟨[n], rfl, rfl, by simp [hroot], List.chain'_singleton _, by simp⟩
    · split at h
      · rename_i q hq
        obtain ⟨path, hres, hhead, hlast, hchain, hlen⟩ := climb_spec fuel q (acc ++ [n]) res h
        cases path with
        | nil => simp at hhead
        | cons x t =>
          simp at hhead
          subst hhead
          refine ⟨n :: x :: t, by simp [hres], rfl, ?_, ?_, ?_⟩
          · rw [List.getLast?_cons_cons]; exact hlast
          · exact List.chain'_cons.2 ⟨hq, hchain⟩
          · simp at hlen ⊢; omega
      · cases h

/-- On a finite tree whose parent links agree with the child lists, the walk
from a node under `root` returns; it appends at most depth + 1 nodes. -/
theorem climb_ok {T : Tree} {root n : Node} (hlinks : ParentLinksAgree T root)
    (hu : Under T root n) :
    ∀ (h : Nat), HeightLE T h root → ∃ k, k ≤ h ∧ HeightLE T (h - k) n ∧
      ∀ (fuel : Nat) (acc : List Node), k < fuel →
        ∃ path, climb T root fuel n acc = .ok (acc ++ path) ∧ path.length ≤ k + 1 := by
  induction hu with
  | refl =>
    intro h hroot
    refine ⟨0, Nat.zero_le _, hroot, ?_⟩
    intro fuel acc hf
    cases fuel with
    | zero => exact absurd hf (Nat.lt_irrefl _)
    | succ fuel =>
      refine ⟨[root], ?_, by simp⟩
      unfold climb
      simp
  | tail hm hc ih =>
    rename_i m c
    intro h hroot
    obtain ⟨k, hk, hHm, hclimb⟩ := ih h hroot
    have hc2 : c ∈ Children T m := hc
    cases hj : h - k with
    | zero =>
      rw [hj] at hHm
      have : Children T m = [] := hHm
      rw [this] at hc2
      cases hc2
    | succ j =>
      rw [hj] at hHm
      have hHc : HeightLE T j c := hHm c hc2
      have hjk : h - (k + 1) = j := by omega
      refine ⟨k + 1, by omega, by rw [hjk]; exact hHc, ?_⟩
      intro fuel acc hf
      cases fuel with
      | zero => exact absurd hf (Nat.not_lt_zero _)
      | succ fuel =>
        unfold climb
        by_cases hroot2 : c = root
        · rw [if_pos hroot2]
          exact ⟨[c], rfl, by simp⟩
        · rw [if_neg hroot2, hlinks m c hm hc2]
          obtain ⟨path, hp, hlen⟩ := hclimb fuel (acc ++ [c]) (Nat.lt_of_succ_lt_succ hf)
          refine ⟨c :: path, ?_, by simp; omega⟩
          simp [hp]

/-- On a finite tree whose parent links agree with the child lists,
`findNodePath` returns once the fuel exceeds the depth, and what it returns is
empty or a chain of parents from a leaf to `root` of at most depth + 1 nodes. -/
theorem findNodePath_ok {T : Tree} {root : Node} {p : Int} {h fuel : Nat}
    (hfin : HeightLE T h root) (hlinks : ParentLinksAgree T root) (hf : h < fuel) :
    ∃ path, findNodePath T root p fuel = .ok path ∧ path.length ≤ h + 1 ∧
      (descend T p fuel root = .ok none ∧ path = [] ∨
        ∃ l, descend T p fuel root = .ok (some l) ∧ path.head? = some l ∧
          path.getLast? = some root ∧ ParentChain T path) := by
  obtain ⟨r, hr⟩ := descend_ok (p := p) h fuel root hfin hf
  cases r with
  | none =>
    refine ⟨[], ?_, by simp, Or.inl ⟨hr, rfl⟩⟩
    unfold findNodePath
    rw [hr]
  | some l =>
    have hs := descend_some fuel root l hr
    obtain ⟨k, hk, _, hclimb⟩ := climb_ok hlinks hs.1 h hfin
    obtain ⟨path, hpath, hlen⟩ := hclimb fuel [] (lt_of_le_of_lt hk hf)
    obtain ⟨path2, h2, hhead, hlast, hchain, _⟩ := climb_spec fuel l [] _ hpath
    simp at h2
    subst h2
    refine ⟨path, ?_, by omega, Or.inr ⟨l, hr, hhead, hlast, parentChain_of_chain _ hchain⟩⟩
    unfold findNodePath
    rw [hr]
    simpa using hpath

/-! ## Fuel only decides whether a run finishes -/

theorem descend_fuel_succ {T : Tree} {p : Int} :
    ∀ (fuel : Nat) (n : Node) (r : Option Node), descend T p fuel n = .ok r →
      descend T p (fuel + 1) n = .ok r
  | 0, n, r, h => by simp [descend] at h
  | fuel + 1, n, r, h => by
    unfold descend at h
    unfold descend
    split
    · rename_i hlen
      rw [if_pos hlen] at h
      split
      · rename_i ch hch
        rw [hch] at h
        exact descend_fuel_succ fuel ch r h
      · rename_i hch
        rw [hch] at h
        exact h
    · rename_i hlen
      rw [if_neg hlen] at h
      exact h

theorem climb_fuel_succ {T : Tree} {root : Node} :
    ∀ (fuel : Nat) (n : Node) (acc res : List Node), climb T root fuel n acc = .ok res →
      climb T root (fuel + 1) n acc = .ok res
  | 0, n, acc, res, h => by simp [climb] at h
  | fuel + 1, n, acc, res, h => by
    unfold climb at h
    unfold climb
    split
    · rename_i hroot
      rw [if_pos hroot] at h
      exact h
    · rename_i hroot
      rw [if_neg hroot] at h
      split
      · rename_i q hq
        rw [hq] at h
        exact climb_fuel_succ fuel q _ res h
      · rename_i hq
        rw [hq] at h
        cases h

/-- A path returned with some fuel is returned with any larger fuel. -/
theorem findNodePath_fuel_mono {T : Tree} {root : Node} {p : Int} {fuel fuel2 : Nat}
    {path : nodePath} (hle : fuel ≤ fuel2) (h : findNodePath T root p fuel = .ok path) :
    findNodePath T root p fuel2 = .ok path := by
  induction hle with
  | refl => exact h
  | @step m _ ih =>
    unfold findNodePath at ih ⊢
    cases hd : descend T p m root with
    | error e => rw [hd] at ih; cases ih
    | ok r =>
      rw [descend_fuel_succ m root r hd]
      rw [hd] at ih
      cases r with
      | none => exact ih
      | some l => exact climb_fuel_succ m l [] path ih

/-! ## The sample tree -/

theorem sampleTree_children {n c : Node} (hc : c ∈ Children sampleTree n) :
    (n = 0 ∧ (c = 1 ∨ c = 2)) ∨ (n = 1 ∧ c = 3) := by
  match n with
  | 0 => simpa [Children, sampleTree] using hc
  | 1 => simpa [Children, sampleTree] using hc
  | 2 => simp [Children, sampleTree] at hc
  | 3 => simp [Children, sampleTree] at hc
  | n + 4 => simp [Children, sampleTree] at hc

theorem sampleTree_under_3 : Under sampleTree 0 3 :=
  Relation.ReflTransGen.tail
    (Relation.ReflTransGen.single (show 1 ∈ Children sampleTree 0 by decide))
    (show 3 ∈ Children sampleTree 1 by decide)

theorem sampleTree_under_2 : Under sampleTree 0 2 :=
  Relation.ReflTransGen.single (show 2 ∈ Children sampleTree 0 by decide)

theorem sampleTree_height : HeightLE sampleTree 2 0 := by
  intro c hc
  rcases sampleTree_children hc with ⟨_, rfl | rfl⟩ | ⟨h, _⟩
  · intro d hd
    rcases sampleTree_children hd with ⟨h, _⟩ | ⟨_, rfl⟩
    · cases h
    · rfl
  · intro d hd
    rcases sampleTree_children hd with ⟨h, _⟩ | ⟨h, _⟩ <;> cases h
  · cases h

theorem sampleTree_links : ParentLinksAgree sampleTree 0 := by
  intro n c _ hc
  rcases sampleTree_children hc with ⟨rfl, rfl | rfl⟩ | ⟨rfl, rfl⟩ <;> rfl

theorem sampleTree_nested : RangesNested sampleTree 0 := by
  intro n c _ hc
  rcases sampleTree_children hc with ⟨rfl, rfl | rfl⟩ | ⟨rfl, rfl⟩ <;> decide

theorem sampleTree_separated : SiblingsSeparated sampleTree 0 := by
  intro n _
  match n with
  | 0 => simp [Children, sampleTree]
  | 1 => simp [Children, sampleTree]
  | 2 => simp [Children, sampleTree]
  | 3 => simp [Children, sampleTree]
  | n + 4 => simp [Children, sampleTree]

theorem sampleTree_one_child_at_1 : AtMostOneChildAt sampleTree 0 1 := by
  intro n _
  match n with
  | 0 => simp [Children, sampleTree, contains]
  | 1 => simp [Children, sampleTree]
  | 2 => simp [Children, sampleTree]
  | 3 => simp [Children, sampleTree]
  | n + 4 => simp [Children, sampleTree]

/-! ## Claims about `findNodePath` -/

/-- C1: on a finite tree (depth at most `h`, parent links agreeing with child
lists) in which each child's range lies within its parent's range and sibling
ranges do not overlap, for every offset `p` strictly inside the range of a
leaf `L` under `root`, `findNodePath root p` returns, with any fuel above the
depth, a non-empty path whose first element is `L` and whose last element is
`root`. -/
theorem findNodePath_strictly_inside_leaf (T : Tree) (root L : Node) (p : Int) (h fuel : Nat)
    (hfin : HeightLE T h root) (hlinks : ParentLinksAgree T root)
    (hnest : RangesNested T root) (hsep : SiblingsSeparated T root)
    (hL : Under T root L) (hleaf : IsLeaf T L)
    (h1 : (T L).From < p) (h2 : p < (T L).To) (hf : h < fuel) :
    ∃ path, findNodePath T root p fuel = .ok path ∧ path ≠ [] ∧
      path.head? = some L ∧ path.getLast? = some root := by
  have hd : descend T p fuel root = .ok (some L) :=
    descend_reaches hleaf h1 h2 h fuel root hfin hf hnest hsep hL
  obtain ⟨path, hpath, _, hcase⟩ := findNodePath_ok (p := p) hfin hlinks hf
  rcases hcase with ⟨hnone, _⟩ | ⟨l, hl, hhead, hlast, _⟩
  · rw [hd] at hnone
    cases hnone
  · rw [hd] at hl
    cases hl
    refine ⟨path, hpath, ?_, hhead, hlast⟩
    intro hnil
    rw [hnil] at hhead
    cases hhead

/-- C1 at the sample tree: offset 1 lies strictly inside leaf 3 = [0, 2]. -/
theorem findNodePath_strictly_inside_leaf_witness :
    ∃ path, findNodePath sampleTree 0 1 3 = .ok path ∧ path ≠ [] ∧
      path.head? = some 3 ∧ path.getLast? = some 0 :=
  findNodePath_strictly_inside_leaf sampleTree 0 3 1 2 3 sampleTree_height sampleTree_links
    sampleTree_nested sampleTree_separated
    sampleTree_under_3 (by decide) (by decide) (by decide) (by decide)

/-- C2: on a finite tree whose parent links agree with its child lists,
`findNodePath root p` returns for every offset `p`, and when the returned path
is non-empty, element `i + 1` is the parent of element `i` for every adjacent
pair, the last element is `root` and the first element has no children. -/
theorem findNodePath_parent_chain (T : Tree) (root : Node) (p : Int) (h fuel : Nat)
    (hfin : HeightLE T h root) (hlinks : ParentLinksAgree T root) (hf : h < fuel) :
    ∃ path, findNodePath T root p fuel = .ok path ∧
      (path ≠ [] → ParentChain T path ∧ path.getLast? = some root ∧
        ∃ l, path.head? = some l ∧ IsLeaf T l) := by
  obtain ⟨path, hpath, _, hcase⟩ := findNodePath_ok (p := p) hfin hlinks hf
  refine ⟨path, hpath, ?_⟩
  intro hne
  rcases hcase with ⟨_, hnil⟩ | ⟨l, hl, hhead, hlast, hchain⟩
  · exact absurd hnil hne
  · exact ⟨hchain, hlast, l, hhead, (descend_some fuel root l hl).2.1⟩

/-- C2 at the sample tree and offset 1. -/
theorem findNodePath_parent_chain_witness :
    ∃ path, findNodePath sampleTree 0 1 3 = .ok path ∧
      (path ≠ [] → ParentChain sampleTree path ∧ path.getLast? = some 0 ∧
        ∃ l, path.head? = some l ∧ IsLeaf sampleTree l) :=
  findNodePath_parent_chain sampleTree 0 1 2 3 sampleTree_height sampleTree_links (by decide)

/-- C3 fails as stated: in the tree of an empty document the root is a leaf of
range [0, 0]; offset 5 lies outside the range of every leaf, yet
`findNodePath` returns the one-element path `[root]`, with any fuel. -/
theorem findNodePath_outside_leaves_counterexample :
    (∀ L, Under emptyDoc 0 L → IsLeaf emptyDoc L → ¬ contains emptyDoc L 5) ∧
      ∀ fuel, 0 < fuel → findNodePath emptyDoc 0 5 fuel = .ok [0] := by
  constructor
  · intro L _ _ hc
    have h5 : (5 : Int) ≤ 0 := hc.2
    exact absurd h5 (by decide)
  · intro fuel hf
    exact findNodePath_fuel_mono hf rfl

/-- C3, amended: on a finite tree whose root has at least one child, for every
offset `p` that lies outside the range (`From <= p <= To`) of every leaf under
`root`, `findNodePath root p` returns the empty path. -/
theorem findNodePath_outside_leaves (T : Tree) (root : Node) (p : Int) (h fuel : Nat)
    (hfin : HeightLE T h root) (hroot : Children T root ≠ [])
    (hout : ∀ L, Under T root L → IsLeaf T L → ¬ contains T L p) (hf : h < fuel) :
    findNodePath T root p fuel = .ok [] := by
  obtain ⟨r, hr⟩ := descend_ok (p := p) h fuel root hfin hf
  cases r with
  | none =>
    unfold findNodePath
    rw [hr]
  | some l =>
    have hs := descend_some fuel root l hr
    exact absurd (descend_some_contains hroot hr) (hout l hs.1 hs.2.1)

/-- C3, amended, at the sample tree: offset 3 is a gap inside node 1. -/
theorem findNodePath_outside_leaves_witness : findNodePath sampleTree 0 3 3 = .ok [] :=
  findNodePath_outside_leaves sampleTree 0 3 2 3 sampleTree_height (by decide)
    (fun L _ hleaf hc => by
      match L with
      | 0 => exact absurd hleaf (by decide)
      | 1 => exact absurd hleaf (by decide)
      | 2 => exact absurd hc (by decide)
      | 3 => exact absurd hc (by decide)
      | n + 4 =>
        have h3 : (3 : Int) ≤ 0 := hc.2
        exact absurd h3 (by decide))
    (by decide)

/-- On the tree of `echo foo ba`, `findNodePath` at the end of the text
returns `echoPath`. -/
theorem echoPath_found : findNodePath echoTree 0 11 6 = .ok echoPath := rfl

/-! ## Sequences of matchers -/

theorem nodePath_match_cons_ok {T : Tree} {m : matcher} {ms : List matcher} {ns ns2 : List Node}
    {mem mem2 : Memory} (h : matcher_match T m ns mem = ((ns2, true), mem2)) :
    nodePath_match T ns (m :: ms) mem = nodePath_match T ns2 ms mem2 := by
  rw [nodePath_match, h]

theorem nodePath_match_cons_fail {T : Tree} {m : matcher} {ms : List matcher} {ns : List Node}
    {mem : Memory} (h : (matcher_match T m ns mem).1.2 = false) :
    nodePath_match T ns (m :: ms) mem = (false, (matcher_match T m ns mem).2) := by
  rcases hr : matcher_match T m ns mem with ⟨⟨ns2, b⟩, mem2⟩
  rw [hr] at h
  simp only at h
  subst h
  rw [nodePath_match, hr]

/-- A prefix of matchers that all succeed hands the remainder and the memory
it leaves to the rest of the sequence. -/
theorem nodePath_match_append {T : Tree} :
    ∀ (ms1 ms2 : List matcher) (ns ns1 : List Node) (mem mem1 : Memory),
      SeqReaches T ms1 ns mem ns1 mem1 →
        nodePath_match T ns (ms1 ++ ms2) mem = nodePath_match T ns1 ms2 mem1
  | [], ms2, ns, ns1, mem, mem1, h => by
    obtain ⟨h1, h2⟩ := h
    subst h1; subst h2
    rfl
  | m :: ms1, ms2, ns, ns1, mem, mem1, h => by
    obtain ⟨ns2, mem2, hm, hrest⟩ := h
    rw [List.cons_append, nodePath_match_cons_ok hm]
    exact nodePath_match_append ms1 ms2 ns2 ns1 mem2 mem1 hrest

theorem nodePath_match_true_iff {T : Tree} :
    ∀ (ms : List matcher) (ns : List Node) (mem : Memory),
      (nodePath_match T ns ms mem).1 = true ↔ ∃ ns2 mem2, SeqReaches T ms ns mem ns2 mem2
  | [], ns, mem => by
    constructor
    · intro _
      exact ⟨ns, mem, rfl, rfl⟩
    · intro _
      rfl
  | m :: ms, ns, mem => by
    rcases hr : matcher_match T m ns mem with ⟨⟨ns2, b⟩, mem2⟩
    cases b with
    | true =>
      rw [nodePath_match_cons_ok hr, nodePath_match_true_iff ms ns2 mem2]
      constructor
      · rintro ⟨ns3, mem3, h⟩
        exact ⟨ns3, mem3, ns2, mem2, hr, h⟩
      · rintro ⟨ns3, mem3, ns4, mem4, h4, h⟩
        rw [hr] at h4
        cases h4
        exact ⟨ns3, mem3, h⟩
    | false =>
      have hf : (matcher_match T m ns mem).1.2 = false := by rw [hr]
      rw [nodePath_match_cons_fail hf]
      constructor
      · intro h
        cases h
      · rintro ⟨ns3, mem3, ns4, mem4, h4, _⟩
        rw [hr] at h4
        cases h4

/-- A failed run splits at its first failing matcher. -/
theorem nodePath_match_false_split {T : Tree} :
    ∀ (ms : List matcher) (ns : List Node) (mem : Memory),
      (nodePath_match T ns ms mem).1 = false →
        ∃ ms1 m ms2 ns1 mem1, ms = ms1 ++ m :: ms2 ∧ SeqReaches T ms1 ns mem ns1 mem1 ∧
          (matcher_match T m ns1 mem1).1.2 = false
  | [], ns, mem, h => by
    cases h
  | m :: ms, ns, mem, h => by
    rcases hr : matcher_match T m ns mem with ⟨⟨ns2, b⟩, mem2⟩
    cases b with
    | true =>
      rw [nodePath_match_cons_ok hr] at h
      obtain ⟨ms1, m1, ms2, ns1, mem1, hms, hreach, hfail⟩ :=
        nodePath_match_false_split ms ns2 mem2 h
      exact ⟨m :: ms1, m1, ms2, ns1, mem1, by rw [hms]; rfl, ⟨ns2, mem2, hr, hreach⟩, hfail⟩
    | false =>
      exact ⟨[], m, ms, ns, mem, rfl, ⟨rfl, rfl⟩, by rw [hr]⟩

/-! ## What a matcher writes -/

theorem typeMatcher_match_nil (T : Tree) (m : typeMatcher) :
    typeMatcher_match T m [] = ([], false) := rfl

theorem typeMatcher_match_cons (T : Tree) (m : typeMatcher) (n : Node) (rest : List Node) :
    typeMatcher_match T m (n :: rest) =
      if (T n).kind = m.typ then (rest, true) else ([], false) := rfl

theorem storeMatcher_match_nil (T : Tree) (m : storeMatcher) (mem : Memory) :
    storeMatcher_match T m [] mem = (([], false), mem) := rfl

theorem storeMatcher_match_cons (T : Tree) (m : storeMatcher) (n : Node) (rest : List Node)
    (mem : Memory) :
    storeMatcher_match T m (n :: rest) mem =
      if (T n).kind = m.typ then
        ((rest, true), { mem with slot := Function.update mem.slot m.p (some n) })
      else (([], false), mem) := rfl

/-- A matcher leaves every slot it does not name as it was. -/
theorem matcher_match_slot_frame {T : Tree} (m : matcher) (ns : List Node) (mem : Memory)
    (a : Nat) (ha : a ∉ slotsOf [m]) : (matcher_match T m ns mem).2.slot a = mem.slot a := by
  cases m with
  | type tm => rfl
  | simplePrimary ptr => rfl
  | store sm =>
    have hne : a ≠ sm.p := by
      intro h
      apply ha
      simp [slotsOf, h]
    cases ns with
    | nil => rfl
    | cons n rest =>
      simp only [matcher_match, storeMatcher_match_cons]
      split
      · exact Function.update_noteq hne _ _
      · rfl

/-- A matcher that fails leaves every slot as it was. -/
theorem matcher_match_fail_slot {T : Tree} (m : matcher) (ns : List Node) (mem : Memory)
    (h : (matcher_match T m ns mem).1.2 = false) : (matcher_match T m ns mem).2.slot = mem.slot := by
  cases m with
  | type tm => rfl
  | simplePrimary ptr => rfl
  | store sm =>
    cases ns with
    | nil => rfl
    | cons n rest =>
      simp only [matcher_match, storeMatcher_match_cons] at h ⊢
      split
      · rename_i hk
        rw [if_pos hk] at h
        cases h
      · rfl

theorem slotsOf_cons_subset (m : matcher) (ms : List matcher) (a : Nat)
    (ha : a ∉ slotsOf (m :: ms)) : a ∉ slotsOf [m] ∧ a ∉ slotsOf ms := by
  cases m with
  | type tm => exact ⟨by simp [slotsOf], by simpa [slotsOf] using ha⟩
  | simplePrimary ptr => exact ⟨by simp [slotsOf], by simpa [slotsOf] using ha⟩
  | store sm =>
    simp only [slotsOf, List.mem_cons, not_or] at ha
    exact ⟨by simp [slotsOf, ha.1], ha.2⟩

/-- A run of matchers that all succeed leaves every slot that none of them
names as it was. -/
theorem seqReaches_slot_frame {T : Tree} :
    ∀ (ms : List matcher) (ns ns1 : List Node) (mem mem1 : Memory) (a : Nat),
      SeqReaches T ms ns mem ns1 mem1 → a ∉ slotsOf ms → mem1.slot a = mem.slot a
  | [], ns, ns1, mem, mem1, a, h, _ => by
    obtain ⟨_, h2⟩ := h
    rw [h2]
  | m :: ms, ns, ns1, mem, mem1, a, h, ha => by
    obtain ⟨ns2, mem2, hm, hrest⟩ := h
    have hsplit := slotsOf_cons_subset m ms a ha
    rw [seqReaches_slot_frame ms ns2 ns1 mem2 mem1 a hrest hsplit.2]
    have := matcher_match_slot_frame (T := T) m ns mem a hsplit.1
    rw [hm] at this
    exact this

/-! ## Claims about the matcher combinators -/

/-- C5: `nodePath.match(P, m1, ..., mk)` reports success if and only if `m1`
succeeds on `P`, `m2` succeeds on the remainder `m1` returned, and so on
through `mk`; and when the matchers before some `m` succeed and `m` fails, the
whole call fails with the memory exactly as `m` left it, whatever matchers
follow: none of them is invoked. -/
theorem nodePath_match_iff_all_succeed (T : Tree) (P : nodePath) (ms : List matcher)
    (mem : Memory) :
    ((nodePath_match T P ms mem).1 = true ↔ ∃ ns2 mem2, SeqReaches T ms P mem ns2 mem2) ∧
      ∀ (ms1 : List matcher) (m : matcher) (ms2 : List matcher) (ns1 : List Node)
        (mem1 : Memory), ms = ms1 ++ m :: ms2 → SeqReaches T ms1 P mem ns1 mem1 →
          (matcher_match T m ns1 mem1).1.2 = false →
            nodePath_match T P ms mem = (false, (matcher_match T m ns1 mem1).2) := by
  refine ⟨nodePath_match_true_iff ms P mem, ?_⟩
  intro ms1 m ms2 ns1 mem1 hms hreach hfail
  rw [hms, nodePath_match_append ms1 (m :: ms2) P ns1 mem mem1 hreach]
  exact nodePath_match_cons_fail hfail

/-- C6: the type matcher for kind `k` succeeds on `ns` if and only if `ns` is
non-empty and the kind of `ns[0]` is `k`; on success the remainder is `ns`
without its first element; on the empty path it fails. -/
theorem typeMatcher_match_iff (T : Tree) (k : Kind) (ns : List Node) :
    ((typeMatcher_match T (typed k) ns).2 = true ↔
        ∃ n rest, ns = n :: rest ∧ (T n).kind = k) ∧
      ((typeMatcher_match T (typed k) ns).2 = true →
        (typeMatcher_match T (typed k) ns).1 = ns.drop 1 ∧
          (typeMatcher_match T (typed k) ns).1.length + 1 = ns.length) ∧
      typeMatcher_match T (typed k) [] = ([], false) := by
  refine ⟨?_, ?_, rfl⟩
  · cases ns with
    | nil => simp [typeMatcher_match_nil]
    | cons n rest =>
      rw [typeMatcher_match_cons]
      by_cases hk : (T n).kind = (typed k).typ
      · rw [if_pos hk]
        exact ⟨fun _ => ⟨n, rest, rfl, hk⟩, fun _ => rfl⟩
      · rw [if_neg hk]
        constructor
        · intro h
          cases h
        · rintro ⟨n2, rest2, heq, hk2⟩
          cases heq
          exact absurd hk2 hk
  · cases ns with
    | nil =>
      intro h
      cases h
    | cons n rest =>
      rw [typeMatcher_match_cons]
      by_cases hk : (T n).kind = (typed k).typ
      · rw [if_pos hk]
        intro _
        exact ⟨rfl, rfl⟩
      · rw [if_neg hk]
        intro h
        cases h

/-- C7: the capturing matcher `store(slot)` returns the same remainder and the
same verdict as the type matcher for the kind of the slot; on success the slot
holds `ns[0]` and nothing else in memory changes; on failure the memory, the
slot included, is as it was before the call. -/
theorem storeMatcher_match_refines_typeMatcher (T : Tree) (slot : Slot) (ns : List Node)
    (mem : Memory) :
    (storeMatcher_match T (store slot) ns mem).1 = typeMatcher_match T (typed slot.typ) ns ∧
      ((storeMatcher_match T (store slot) ns mem).1.2 = true →
        (∃ n, ns.head? = some n ∧
          (storeMatcher_match T (store slot) ns mem).2.slot slot.addr = some n) ∧
        (∀ a, a ≠ slot.addr →
          (storeMatcher_match T (store slot) ns mem).2.slot a = mem.slot a) ∧
        (storeMatcher_match T (store slot) ns mem).2.spm = mem.spm) ∧
      ((storeMatcher_match T (store slot) ns mem).1.2 = false →
        (storeMatcher_match T (store slot) ns mem).2 = mem) := by
  cases ns with
  | nil =>
    refine ⟨rfl, ?_, fun _ => rfl⟩
    intro h
    cases h
  | cons n rest =>
    rw [storeMatcher_match_cons, typeMatcher_match_cons]
    by_cases hk : (T n).kind = slot.typ
    · have hk1 : (T n).kind = (store slot).typ := hk
      have hk2 : (T n).kind = (typed slot.typ).typ := hk
      rw [if_pos hk1, if_pos hk2]
      refine ⟨rfl, ?_, ?_⟩
      · intro _
        refine ⟨⟨n, rfl, ?_⟩, ?_, rfl⟩
        · exact Function.update_same _ _ _
        · intro a ha
          exact Function.update_noteq ha _ _
      · intro h
        cases h
    · have hk1 : ¬ (T n).kind = (store slot).typ := hk
      have hk2 : ¬ (T n).kind = (typed slot.typ).typ := hk
      rw [if_neg hk1, if_neg hk2]
      refine ⟨rfl, ?_, fun _ => rfl⟩
      intro h
      cases h

/-- C8 fails as stated: on the path of `echo foo ba`, the sequence "capture a
Primary into slot 0, then a Form" fails at its second matcher (the second node
is an Indexing), and slot 0, empty before the call, holds node 13 after it. -/
theorem nodePath_match_capture_counterexample :
    (nodePath_match echoTree echoPath
        [matcher.store (store ⟨0, Kind.Primary⟩), matcher.type (typed Kind.Form)]
        emptyMemory).1 = false ∧
      emptyMemory.slot 0 = none ∧
      (nodePath_match echoTree echoPath
        [matcher.store (store ⟨0, Kind.Primary⟩), matcher.type (typed Kind.Form)]
        emptyMemory).2.slot 0 = some 13 := by
  refine ⟨rfl, rfl, rfl⟩

/-- C8, amended: when `nodePath.match` reports failure, the sequence splits
into matchers that succeeded, the first matcher that failed and the rest, and
every capture slot that none of the matchers before the failing one names
still holds the value it had before the call. -/
theorem nodePath_match_fail_keeps_slots (T : Tree) (P : nodePath) (ms : List matcher)
    (mem : Memory) (hfail : (nodePath_match T P ms mem).1 = false) :
    ∃ ms1 m ms2 ns1 mem1, ms = ms1 ++ m :: ms2 ∧ SeqReaches T ms1 P mem ns1 mem1 ∧
      (matcher_match T m ns1 mem1).1.2 = false ∧
      ∀ a, a ∉ slotsOf ms1 → (nodePath_match T P ms mem).2.slot a = mem.slot a := by
  obtain ⟨ms1, m, ms2, ns1, mem1, hms, hreach, hm⟩ := nodePath_match_false_split ms P mem hfail
  refine ⟨ms1, m, ms2, ns1, mem1, hms, hreach, hm, ?_⟩
  intro a ha
  rw [hms, nodePath_match_append ms1 (m :: ms2) P ns1 mem mem1 hreach,
    nodePath_match_cons_fail hm]
  simp only
  rw [matcher_match_fail_slot m ns1 mem1 hm]
  exact seqReaches_slot_frame ms1 P ns1 mem mem1 a hreach ha

/-- C8, amended, on the path of `echo foo ba` with the sequence "a Primary,
then capture a Form into slot 0": the capture fails on the Indexing node. -/
theorem nodePath_match_fail_keeps_slots_witness :
    ∃ ms1 m ms2 ns1 mem1,
      [matcher.type (typed Kind.Primary), matcher.store (store ⟨0, Kind.Form⟩)] =
        ms1 ++ m :: ms2 ∧
      SeqReaches echoTree ms1 echoPath emptyMemory ns1 mem1 ∧
      (matcher_match echoTree m ns1 mem1).1.2 = false ∧
      ∀ a, a ∉ slotsOf ms1 →
        (nodePath_match echoTree echoPath
          [matcher.type (typed Kind.Primary), matcher.store (store ⟨0, Kind.Form⟩)]
          emptyMemory).2.slot a = emptyMemory.slot a :=
  nodePath_match_fail_keeps_slots echoTree echoPath
    [matcher.type (typed Kind.Primary), matcher.store (store ⟨0, Kind.Form⟩)] emptyMemory rfl

/-! ## The simple-primary-expression matcher -/

theorem simplePrimaryMatcher_match_short (T : Tree) (m : simplePrimaryMatcher)
    (ns : List Node) (h : ns.length < 3) :
    simplePrimaryMatcher_match T m ns = (([], false), m) := by
  match ns, h with
  | [], _ => rfl
  | [_], _ => rfl
  | [_, _], _ => rfl
  | _ :: _ :: _ :: _, h => simp at h; omega

/-- The matcher on a path of at least three nodes, as one test. -/
theorem simplePrimaryMatcher_match_cons3 (T : Tree) (m : simplePrimaryMatcher)
    (n0 n1 n2 : Node) (rest : List Node) :
    simplePrimaryMatcher_match T m (n0 :: n1 :: n2 :: rest) =
      if (T n0).kind = Kind.Primary ∧ (T n1).kind = Kind.Indexing ∧
          (T n2).kind = Kind.Compound ∧
          (m.ev.PurelyEvalPartialCompound n2 (T n1).To).2 = true then
        ((rest, true),
          { m with primary := some n0, compound := some n2,
                   s := (m.ev.PurelyEvalPartialCompound n2 (T n1).To).1 })
      else (([], false), m) := by
  unfold simplePrimaryMatcher_match
  by_cases h0 : (T n0).kind = Kind.Primary
  · by_cases h1 : (T n1).kind = Kind.Indexing
    · by_cases h2 : (T n2).kind = Kind.Compound
      · rcases hev : m.ev.PurelyEvalPartialCompound n2 (T n1).To with ⟨v, b⟩
        cases b <;> simp [h0, h1, h2, hev]
      · simp [h0, h1, h2]
    · simp [h0, h1]
  · simp [h0]

/-- C9: the simple-primary-expression matcher succeeds on `ns` if and only if
`ns` has at least three elements, `ns[0]` is a Primary, `ns[1]` an Indexing,
`ns[2]` a Compound, and `PurelyEvalPartialCompound(ns[2], ns[1].To)` reports
ok; so it fails on every path shorter than 3 and on every path whose first
three kinds are not (Primary, Indexing, Compound), whatever follows. -/
theorem simplePrimaryMatcher_match_iff (T : Tree) (m : simplePrimaryMatcher) (ns : List Node) :
    ((simplePrimaryMatcher_match T m ns).1.2 = true ↔
        ∃ n0 n1 n2 rest, ns = n0 :: n1 :: n2 :: rest ∧ (T n0).kind = Kind.Primary ∧
          (T n1).kind = Kind.Indexing ∧ (T n2).kind = Kind.Compound ∧
          (m.ev.PurelyEvalPartialCompound n2 (T n1).To).2 = true) ∧
      (ns.length < 3 → (simplePrimaryMatcher_match T m ns).1.2 = false) ∧
      (∀ n0 n1 n2 rest, ns = n0 :: n1 :: n2 :: rest →
        ¬ ((T n0).kind = Kind.Primary ∧ (T n1).kind = Kind.Indexing ∧
            (T n2).kind = Kind.Compound) →
          (simplePrimaryMatcher_match T m ns).1.2 = false) := by
  refine ⟨?_, ?_, ?_⟩
  · constructor
    · intro h
      match ns with
      | [] => cases h
      | [_] => cases h
      | [_, _] => cases h
      | n0 :: n1 :: n2 :: rest =>
        rw [simplePrimaryMatcher_match_cons3] at h
        split at h
        · rename_i hc
          exact ⟨n0, n1, n2, rest, rfl, hc⟩
        · cases h
    · rintro ⟨n0, n1, n2, rest, rfl, hc⟩
      rw [simplePrimaryMatcher_match_cons3, if_pos hc]
  · intro h
    rw [simplePrimaryMatcher_match_short T m ns h]
  · rintro n0 n1 n2 rest rfl hk
    rw [simplePrimaryMatcher_match_cons3, if_neg]
    intro hc
    exact hk ⟨hc.1, hc.2.1, hc.2.2.1⟩

/-- C10: when the simple-primary-expression matcher succeeds on `ns`, the
remainder is `ns` without its first three elements, `primary` is `ns[0]`,
`compound` is `ns[2]`, and `s` is the string that
`PurelyEvalPartialCompound(ns[2], ns[1].To)` returned, the bound being the end
offset of the matched Indexing node. -/
theorem simplePrimaryMatcher_match_outputs (T : Tree) (m : simplePrimaryMatcher)
    (ns : List Node) (hok : (simplePrimaryMatcher_match T m ns).1.2 = true) :
    ∃ n0 n1 n2 rest, ns = n0 :: n1 :: n2 :: rest ∧
      (simplePrimaryMatcher_match T m ns).1.1 = ns.drop 3 ∧
      (simplePrimaryMatcher_match T m ns).2.primary = some n0 ∧
      (simplePrimaryMatcher_match T m ns).2.compound = some n2 ∧
      (simplePrimaryMatcher_match T m ns).2.s =
        (m.ev.PurelyEvalPartialCompound n2 (T n1).To).1 ∧
      (m.ev.PurelyEvalPartialCompound n2 (T n1).To).2 = true := by
  match ns with
  | [] => cases hok
  | [_] => cases hok
  | [_, _] => cases hok
  | n0 :: n1 :: n2 :: rest =>
    rw [simplePrimaryMatcher_match_cons3] at hok ⊢
    split at hok
    · rename_i hc
      rw [if_pos hc]
      exact ⟨n0, n1, n2, rest, rfl, rfl, rfl, rfl, rfl, hc.2.2.2⟩
    · cases hok

/-- C10 on the path of `echo foo ba`: the matcher binds Primary 13 and
Compound 11 and the value of `ba`. -/
theorem simplePrimaryMatcher_match_outputs_witness :
    ∃ n0 n1 n2 rest, echoPath = n0 :: n1 :: n2 :: rest ∧
      (simplePrimaryMatcher_match echoTree (simplePrimaryExpr echoEval) echoPath).1.1 =
        echoPath.drop 3 ∧
      (simplePrimaryMatcher_match echoTree (simplePrimaryExpr echoEval) echoPath).2.primary =
        some n0 ∧
      (simplePrimaryMatcher_match echoTree (simplePrimaryExpr echoEval) echoPath).2.compound =
        some n2 ∧
      (simplePrimaryMatcher_match echoTree (simplePrimaryExpr echoEval) echoPath).2.s =
        ((simplePrimaryExpr echoEval).ev.PurelyEvalPartialCompound n2 (echoTree n1).To).1 ∧
      ((simplePrimaryExpr echoEval).ev.PurelyEvalPartialCompound n2 (echoTree n1).To).2 = true :=
  simplePrimaryMatcher_match_outputs echoTree (simplePrimaryExpr echoEval) echoPath rfl

/-! ## The lookup `primaryInSimpleCompound` -/

/-- The lookup when both parents exist, as one test. -/
theorem primaryInSimpleCompound_some_some (T : Tree) (pn ix c : Node) (ev : PureEvaler)
    (h1 : parent T pn = some ix) (h2 : parent T ix = some c) :
    primaryInSimpleCompound T pn ev =
      if (T ix).kind = Kind.Indexing ∧ (T c).kind = Kind.Compound ∧
          (ev.PurelyEvalPartialCompound c (T ix).To).2 = true then
        (some c, (ev.PurelyEvalPartialCompound c (T ix).To).1)
      else (none, "") := by
  unfold primaryInSimpleCompound
  rw [h1]
  simp only
  by_cases hk1 : (T ix).kind = Kind.Indexing
  · rw [if_pos hk1, h2]
    simp only
    by_cases hk2 : (T c).kind = Kind.Compound
    · rw [if_pos hk2]
      rcases hev : ev.PurelyEvalPartialCompound c (T ix).To with ⟨v, b⟩
      cases b <;> simp [hk1, hk2]
    · rw [if_neg hk2, if_neg]
      intro hc
      exact hk2 hc.2.1
  · rw [if_neg hk1, if_neg]
    intro hc
    exact hk1 hc.1

theorem primaryInSimpleCompound_none (T : Tree) (pn : Node) (ev : PureEvaler)
    (h1 : parent T pn = none) : primaryInSimpleCompound T pn ev = (none, "") := by
  unfold primaryInSimpleCompound
  rw [h1]

theorem primaryInSimpleCompound_some_none (T : Tree) (pn ix : Node) (ev : PureEvaler)
    (h1 : parent T pn = some ix) (h2 : parent T ix = none) :
    primaryInSimpleCompound T pn ev = (none, "") := by
  unfold primaryInSimpleCompound
  rw [h1]
  simp only
  by_cases hk1 : (T ix).kind = Kind.Indexing
  · rw [if_pos hk1, h2]
  · rw [if_neg hk1]

/-- C11: `primaryInSimpleCompound(pn, ev)` returns `(c, v)` with `c` present if
and only if the immediate parent of `pn` is an Indexing node `ix`, the
immediate parent of `ix` is the Compound node `c`, and
`PurelyEvalPartialCompound(c, ix.To)` reports ok with value `v`; in every
other case it returns the failure indicator (no compound, empty string). -/
theorem primaryInSimpleCompound_iff (T : Tree) (pn : Node) (ev : PureEvaler) :
    (∀ c v, primaryInSimpleCompound T pn ev = (some c, v) ↔
        ∃ ix, parent T pn = some ix ∧ (T ix).kind = Kind.Indexing ∧
          parent T ix = some c ∧ (T c).kind = Kind.Compound ∧
          ev.PurelyEvalPartialCompound c (T ix).To = (v, true)) ∧
      ((¬ ∃ ix c, parent T pn = some ix ∧ (T ix).kind = Kind.Indexing ∧
          parent T ix = some c ∧ (T c).kind = Kind.Compound ∧
          (ev.PurelyEvalPartialCompound c (T ix).To).2 = true) →
        primaryInSimpleCompound T pn ev = (none, "")) := by
  cases h1 : parent T pn with
  | none =>
    rw [primaryInSimpleCompound_none T pn ev h1]
    refine ⟨?_, fun _ => rfl⟩
    intro c v
    constructor
    · intro h
      cases h
    · rintro ⟨ix, h, _⟩
      cases h
  | some ix =>
    cases h2 : parent T ix with
    | none =>
      rw [primaryInSimpleCompound_some_none T pn ix ev h1 h2]
      refine ⟨?_, fun _ => rfl⟩
      intro c v
      constructor
      · intro h
        cases h
      · rintro ⟨ix2, h, _, h3, _⟩
        cases h
        rw [h2] at h3
        cases h3
    | some c0 =>
      rw [primaryInSimpleCompound_some_some T pn ix c0 ev h1 h2]
      constructor
      · intro c v
        constructor
        · intro h
          split at h
          · rename_i hc
            cases h
            exact ⟨ix, rfl, hc.1, h2, hc.2.1, Prod.ext rfl hc.2.2⟩
          · cases h
        · rintro ⟨ix2, h, hk1, h3, hk2, hev⟩
          cases h
          rw [h2] at h3
          cases h3
          have hb : (ev.PurelyEvalPartialCompound c0 (T ix).To).2 = true := by rw [hev]
          rw [if_pos ⟨hk1, hk2, hb⟩, hev]
      · intro hno
        rw [if_neg]
        intro hc
        exact hno ⟨ix, c0, rfl, hc.1, h2, hc.2.1, hc.2.2⟩

/-! ## The context helper `purelyEvalForm` -/

theorem argsBefore_nil (T : Tree) (upto : Int) : argsBefore T upto [] = [] := rfl

theorem argsBefore_cons_lt (T : Tree) (upto : Int) (c : Node) (rest : List Node)
    (h : (T c).From < upto) : argsBefore T upto (c :: rest) = c :: argsBefore T upto rest := by
  unfold argsBefore
  rw [List.takeWhile_cons_of_pos]
  exact decide_eq_true h

theorem argsBefore_cons_ge (T : Tree) (upto : Int) (c : Node) (rest : List Node)
    (h : ¬ (T c).From < upto) : argsBefore T upto (c :: rest) = [] := by
  unfold argsBefore
  rw [List.takeWhile_cons_of_neg]
  simpa using h

theorem evaluableValues_nil (ev : PureEvaler) : evaluableValues ev [] = [] := rfl

theorem evaluableValues_cons (ev : PureEvaler) (c : Node) (cs : List Node) :
    evaluableValues ev (c :: cs) =
      if (ev.PurelyEvalCompound c).2 = true then
        (ev.PurelyEvalCompound c).1 :: evaluableValues ev cs
      else evaluableValues ev cs := by
  unfold evaluableValues
  by_cases h : (ev.PurelyEvalCompound c).2 = true
  · simp [List.filterMap_cons, h]
  · simp [List.filterMap_cons, h]

theorem evaluableValues_append (ev : PureEvaler) (as bs : List Node) :
    evaluableValues ev (as ++ bs) = evaluableValues ev as ++ evaluableValues ev bs := by
  unfold evaluableValues
  exact List.filterMap_append _ _ _

theorem evaluableValues_length (ev : PureEvaler) (cs : List Node) :
    (evaluableValues ev cs).length =
      (cs.filter (fun c => (ev.PurelyEvalCompound c).2)).length := by
  induction cs with
  | nil => rfl
  | cons c cs ih =>
    rw [evaluableValues_cons]
    by_cases h : (ev.PurelyEvalCompound c).2 = true
    · rw [if_pos h]
      simp [List.filter_cons, h, ih]
    · rw [if_neg h]
      simp [List.filter_cons, h, ih]

/-- The loop appends to `words` the values of the purely evaluable arguments
in the longest prefix that starts below the cutoff. -/
theorem purelyEvalFormArgs_eq (T : Tree) (upto : Int) (ev : PureEvaler) :
    ∀ (args : List Node) (words : List String),
      purelyEvalFormArgs T upto ev args words =
        words ++ evaluableValues ev (argsBefore T upto args)
  | [], words => by
    simp [purelyEvalFormArgs, argsBefore_nil, evaluableValues_nil]
  | c :: rest, words => by
    unfold purelyEvalFormArgs
    by_cases h : (T c).From ≥ upto
    · rw [if_pos h, argsBefore_cons_ge T upto c rest (not_lt.2 h)]
      simp [evaluableValues_nil]
    · rw [if_neg h, argsBefore_cons_lt T upto c rest (not_le.1 h), evaluableValues_cons]
      rcases hev : ev.PurelyEvalCompound c with ⟨v, b⟩
      cases b with
      | true =>
        simp only [if_true]
        rw [purelyEvalFormArgs_eq T upto ev rest (words ++ [v])]
        simp
      | false =>
        simp only [Bool.false_eq_true, if_false]
        exact purelyEvalFormArgs_eq T upto ev rest words

theorem purelyEvalForm_eq (T : Tree) (form : Form) (seed : String) (upto : Int)
    (ev : PureEvaler) :
    purelyEvalForm T form seed upto ev =
      headWord form ev :: evaluableValues ev (argsBefore T upto form.Args) ++ [seed] := by
  unfold purelyEvalForm headWord
  simp only
  rw [purelyEvalFormArgs_eq]
  rfl

theorem argsBefore_initial (T : Tree) (upto : Int) (args : List Node) :
    argsBefore T upto args <+: args :=
  List.takeWhile_prefix _

theorem argsBefore_lt (T : Tree) (upto : Int) (args : List Node) (c : Node)
    (hc : c ∈ argsBefore T upto args) : (T c).From < upto := by
  have := List.mem_takeWhile_imp hc
  simpa using this

/-- Every prefix of the argument list whose start offsets are all below the
cutoff is a prefix of `argsBefore`: that one is the longest. -/
theorem argsBefore_longest (T : Tree) (upto : Int) :
    ∀ (args pre : List Node), pre <+: args → (∀ c ∈ pre, (T c).From < upto) →
      pre <+: argsBefore T upto args
  | _, [], _, _ => List.nil_prefix
  | [], c :: pre, hp, _ => by
    have := List.IsPrefix.length_le hp
    simp at this
  | a :: args, c :: pre, hp, hall => by
    rw [List.cons_prefix_cons] at hp
    obtain ⟨hac, hp2⟩ := hp
    subst hac
    rw [argsBefore_cons_lt T upto c args (hall c (List.mem_cons_self _ _))]
    rw [List.cons_prefix_cons]
    exact ⟨rfl, argsBefore_longest T upto args pre hp2
      (fun d hd => hall d (List.mem_cons_of_mem _ hd))⟩

/-- C12: for every form, seed, cutoff and evaluator, `purelyEvalForm` returns
a list of at least two strings whose first element is the head word and whose
last element is `seed`; the entries in between come from arguments that all
start below the cutoff, so no argument that starts at or after the cutoff
contributes an entry. The function is total: it has no error result. -/
theorem purelyEvalForm_shape (T : Tree) (form : Form) (seed : String) (upto : Int)
    (ev : PureEvaler) :
    2 ≤ (purelyEvalForm T form seed upto ev).length ∧
      (purelyEvalForm T form seed upto ev).head? = some (headWord form ev) ∧
      (purelyEvalForm T form seed upto ev).getLast? = some seed ∧
      ∃ used : List Node, used.Sublist form.Args ∧ (∀ c ∈ used, (T c).From < upto) ∧
        purelyEvalForm T form seed upto ev =
          headWord form ev :: evaluableValues ev used ++ [seed] := by
  rw [purelyEvalForm_eq]
  refine ⟨?_, rfl, ?_, argsBefore T upto form.Args,
    (argsBefore_initial T upto form.Args).sublist, argsBefore_lt T upto form.Args, rfl⟩
  · simp
  · have h : ∀ l : List String, (l ++ [seed]).getLast? = some seed := by
      intro l
      rw [List.getLast?_append]
      rfl
    exact h _

/-- C13: the elements of the result of `purelyEvalForm` between the head word
and `seed` are exactly, in source order, the values `PurelyEvalCompound`
returns with ok for the arguments in the longest prefix of the argument list
whose start offsets are below the cutoff; an argument that is not purely
evaluable gives no entry, so the result has 2 plus the number of those
evaluable arguments elements. -/
theorem purelyEvalForm_values (T : Tree) (form : Form) (seed : String) (upto : Int)
    (ev : PureEvaler) :
    purelyEvalForm T form seed upto ev =
        headWord form ev :: evaluableValues ev (argsBefore T upto form.Args) ++ [seed] ∧
      (purelyEvalForm T form seed upto ev).length =
        2 + ((argsBefore T upto form.Args).filter
          (fun c => (ev.PurelyEvalCompound c).2)).length ∧
      (argsBefore T upto form.Args <+: form.Args ∧
        (∀ c ∈ argsBefore T upto form.Args, (T c).From < upto) ∧
        ∀ pre, pre <+: form.Args → (∀ c ∈ pre, (T c).From < upto) →
          pre <+: argsBefore T upto form.Args) := by
  refine ⟨purelyEvalForm_eq T form seed upto ev, ?_, argsBefore_initial T upto form.Args,
    argsBefore_lt T upto form.Args, argsBefore_longest T upto form.Args⟩
  rw [purelyEvalForm_eq, ← evaluableValues_length]
  simp
  omega

/-- The ok flag of the head evaluation is discarded and the string kept: with
an evaluator that breaks the convention and reports not-ok together with the
string `?`, the first element of the result is `?`. -/
theorem purelyEvalForm_head_keeps_string :
    (markEval.PurelyEvalPartialCompound echoForm.Head (-1)).2 = false ∧
      (purelyEvalForm echoTree echoForm "ba" 9 markEval).head? = some "?" :=
  ⟨rfl, rfl⟩

/-- C14: for every form whose head compound cannot be purely evaluated
(`PurelyEvalPartialCompound` on the head reports not-ok, which by the
evaluator's convention comes with the empty string), the first element of the
result of `purelyEvalForm` is the empty string. -/
theorem purelyEvalForm_head_not_ok (T : Tree) (form : Form) (seed : String) (upto : Int)
    (ev : PureEvaler) (hconv : EmptyOnNotOk ev)
    (hnot : (ev.PurelyEvalPartialCompound form.Head (-1)).2 = false) :
    (purelyEvalForm T form seed upto ev).head? = some "" := by
  rw [purelyEvalForm_eq]
  simp only [List.cons_append, List.head?_cons, headWord]
  rw [hconv form.Head (-1) hnot]

theorem dollarEval_emptyOnNotOk : EmptyOnNotOk dollarEval := by
  intro c u h
  by_cases h3 : c = 3
  · simp [dollarEval, h3] at h
  · by_cases h11 : c = 11
    · simp [dollarEval, h11] at h
    · simp [dollarEval, h3, h11]

/-- C14 on a form whose head is the compound `$x` of `dollarTree`, which
`dollarEval` cannot evaluate. -/
theorem purelyEvalForm_head_not_ok_witness :
    (purelyEvalForm dollarTree ⟨7, [11]⟩ "fo" 8 dollarEval).head? = some "" :=
  purelyEvalForm_head_not_ok dollarTree ⟨7, [11]⟩ "fo" 8 dollarEval dollarEval_emptyOnNotOk rfl

theorem argsBefore_append_ge (T : Tree) (upto : Int) (A : Node) (post : List Node) :
    ∀ (pre : List Node), (∀ c ∈ pre, (T c).From < upto) → upto ≤ (T A).From →
      argsBefore T upto (pre ++ A :: post) = pre
  | [], _, hA => argsBefore_cons_ge T upto A post (not_lt.2 hA)
  | c :: pre, hpre, hA => by
    rw [List.cons_append, argsBefore_cons_lt T upto c _ (hpre c (List.mem_cons_self _ _)),
      argsBefore_append_ge T upto A post pre (fun d hd => hpre d (List.mem_cons_of_mem _ hd)) hA]

/-- C15 fails as stated: with the cursor offset itself as the cutoff, the
argument under the cursor starts below the cutoff and is evaluated like the
others. For `echo foo ba` with the cursor at the end of input (11, inside
`ba` = [9, 11]) and seed `ba` the result has `ba` twice; for `echo $x foo`
with the cursor at 10 (inside `foo` = [8, 11]) and seed `fo` the result
contains `foo`. -/
theorem purelyEvalForm_cursor_inside_counterexample :
    ((echoTree 11).From < 11 ∧ (11 : Int) ≤ (echoTree 11).To ∧ 11 ∈ echoForm.Args ∧
        purelyEvalForm echoTree echoForm "ba" 11 echoEval = ["echo", "foo", "ba", "ba"]) ∧
      ((dollarTree 11).From < 10 ∧ (10 : Int) ≤ (dollarTree 11).To ∧ 11 ∈ echoForm.Args ∧
        purelyEvalForm dollarTree echoForm "fo" 10 dollarEval = ["echo", "foo", "fo"]) := by
  refine ⟨⟨by decide, by decide, by decide, rfl⟩, ⟨by decide, by decide, by decide, rfl⟩⟩

/-- C15, amended: when the cutoff is at or before the start of an argument `A`
(the callers pass the start offset of the argument under the cursor) and the
arguments before `A` start below the cutoff, `purelyEvalForm` returns the head
word, then the values of the purely evaluable arguments that precede `A`, then
`seed`: `A` and the arguments after it contribute no entry. -/
theorem purelyEvalForm_before_argument (T : Tree) (form : Form) (seed : String) (upto : Int)
    (ev : PureEvaler) (pre post : List Node) (A : Node)
    (hargs : form.Args = pre ++ A :: post) (hpre : ∀ c ∈ pre, (T c).From < upto)
    (hA : upto ≤ (T A).From) :
    purelyEvalForm T form seed upto ev =
      headWord form ev :: evaluableValues ev pre ++ [seed] := by
  rw [purelyEvalForm_eq, hargs, argsBefore_append_ge T upto A post pre hpre hA]

/-- C15, amended, on the two scenarios of the specification: `echo foo ba`
with the cutoff at the start of `ba` (9) and seed `ba`, and `echo $x foo` with
the cutoff at the start of `foo` (8) and seed `fo`. -/
theorem purelyEvalForm_before_argument_witness :
    purelyEvalForm echoTree echoForm "ba" 9 echoEval = ["echo", "foo", "ba"] ∧
      purelyEvalForm dollarTree echoForm "fo" 8 dollarEval = ["echo", "fo"] :=
  ⟨purelyEvalForm_before_argument echoTree echoForm "ba" 9 echoEval [7] [] 11 rfl
      (fun c hc => by
        have h7 : c = 7 := by simpa using hc
        subst h7
        decide)
      (by decide),
    purelyEvalForm_before_argument dollarTree echoForm "fo" 8 dollarEval [7] [] 11 rfl
      (fun c hc => by
        have h7 : c = 7 := by simpa using hc
        subst h7
        decide)
      (by decide)⟩

/-! ## The order of the descent -/

theorem firstChildAt_isFirst {T : Tree} {p : Int} :
    ∀ (l : List Node) (a : Node), firstChildAt T p l = some a →
      ∃ pre post, l = pre ++ a :: post ∧ (∀ c ∈ pre, ¬ contains T c p) ∧ contains T a p
  | [], a, h => by simp [firstChildAt] at h
  | x :: l, a, h => by
    unfold firstChildAt at h
    by_cases hx : contains T x p
    · rw [if_pos hx] at h
      cases h
      exact ⟨[], l, rfl, fun c hc => absurd hc (List.not_mem_nil c), hx⟩
    · rw [if_neg hx] at h
      obtain ⟨pre, post, hl, hpre, ha⟩ := firstChildAt_isFirst l a h
      refine ⟨x :: pre, post, by rw [hl]; rfl, ?_, ha⟩
      intro c hc
      rcases List.mem_cons.1 hc with rfl | hc
      · exact hx
      · exact hpre c hc

theorem descends_under {T : Tree} {p : Int} {a n : Node} (h : Descends T p a n) :
    Under T a n :=
  Relation.ReflTransGen.mono (fun _ _ hstep => (firstChildAt_some hstep).1) h

/-- The descent moves only from a node to its first child that contains `p`. -/
theorem descend_descends {T : Tree} {p : Int} :
    ∀ (fuel : Nat) (n l : Node), descend T p fuel n = .ok (some l) → Descends T p n l
  | 0, n, l, h => by simp [descend] at h
  | fuel + 1, n, l, h => by
    unfold descend at h
    split at h
    · split at h
      · rename_i ch hch
        exact Relation.ReflTransGen.head hch (descend_descends fuel ch l h)
      · cases h
    · cases h
      exact Relation.ReflTransGen.refl

theorem chain_index {R : Node → Node → Prop} :
    ∀ (path : List Node), List.Chain' R path →
      ∀ (i : Nat) (a b : Node), path[i]? = some a → path[i + 1]? = some b → R a b
  | [], _ => by
    intro i a b ha _
    simp at ha
  | x :: t, hch => by
    intro i a b ha hb
    cases i with
    | zero =>
      cases t with
      | nil => simp at hb
      | cons y t2 =>
        simp at ha hb
        subst ha; subst hb
        exact (List.chain'_cons.1 hch).1
    | succ i =>
      simp at ha hb
      exact chain_index t (List.Chain'.tail hch) i a b ha (by simpa using hb)

/-- With parent links that agree with the child lists, the walk from a node
the descent reached retraces the descent: each node it appends is the first
child containing `p` of the node appended next. -/
theorem climb_retraces {T : Tree} {root n : Node} {p : Int} (hlinks : ParentLinksAgree T root)
    (hd : Descends T p root n) :
    ∀ (fuel : Nat) (acc res : List Node), climb T root fuel n acc = .ok res →
      ∃ path, res = acc ++ path ∧ path.head? = some n ∧
        List.Chain' (fun a b => firstChildAt T p (Children T b) = some a) path := by
  induction hd with
  | refl =>
    intro fuel acc res h
    cases fuel with
    | zero => simp [climb] at h
    | succ fuel =>
      unfold climb at h
      rw [if_pos rfl] at h
      cases h
      exact ⟨[root], rfl, rfl, List.chain'_singleton _⟩
  | tail hm hstep ih =>
    rename_i m c
    intro fuel acc res h
    cases fuel with
    | zero => simp [climb] at h
    | succ fuel =>
      unfold climb at h
      by_cases hroot : c = root
      · rw [if_pos hroot] at h
        cases h
        exact ⟨[c], rfl, rfl, List.chain'_singleton _⟩
      · have hpar : Parent T c = some m :=
          hlinks m c (descends_under hm) (firstChildAt_some hstep).1
        rw [if_neg hroot, hpar] at h
        obtain ⟨path, hres, hhead, hchain⟩ := ih fuel (acc ++ [c]) res h
        cases path with
        | nil => simp at hhead
        | cons x t =>
          simp at hhead
          subst hhead
          refine ⟨c :: x :: t, by simp [hres], rfl, ?_⟩
          exact List.chain'_cons.2 ⟨hstep, hchain⟩

/-! ## The tree of `echo foo ba` -/

theorem echoTree_height : HeightLE echoTree 5 0 := by
  simp [HeightLE, Children, echoTree]

theorem echoTree_links_at (n : Node) : ∀ c ∈ Children echoTree n, Parent echoTree c = some n := by
  match n with
  | 0 => decide
  | 1 => decide
  | 2 => decide
  | 3 => decide
  | 4 => decide
  | 5 => decide
  | 6 => decide
  | 7 => decide
  | 8 => decide
  | 9 => decide
  | 10 => decide
  | 11 => decide
  | 12 => decide
  | 13 => decide
  | n + 14 =>
    intro c hc
    simp [Children, echoTree] at hc

theorem echoTree_links : ParentLinksAgree echoTree 0 :=
  fun n c _ hc => echoTree_links_at n c hc

/-! ## Further claims about `findNodePath` -/

/-- C16: on a finite tree whose parent links agree with its child lists,
`findNodePath root p` returns a path in which every element except the last
is the first child, in child order, of the next element whose range contains
`p` inclusively on both ends: no earlier child contains `p`, and the children
after it, whether they contain `p` or not, play no part. -/
theorem findNodePath_takes_first_child (T : Tree) (root : Node) (p : Int) (h fuel : Nat)
    (hfin : HeightLE T h root) (hlinks : ParentLinksAgree T root) (hf : h < fuel) :
    ∃ path, findNodePath T root p fuel = .ok path ∧
      ∀ (i : Nat) (a b : Node), path[i]? = some a → path[i + 1]? = some b →
        IsFirstChildAt T p b a := by
  obtain ⟨path, hpath, _, hcase⟩ := findNodePath_ok (p := p) hfin hlinks hf
  refine ⟨path, hpath, ?_⟩
  rcases hcase with ⟨_, hnil⟩ | ⟨l, hl, _, _, _⟩
  · intro i a b ha _
    rw [hnil] at ha
    simp at ha
  · have hclimb : climb T root fuel l [] = .ok path := by
      unfold findNodePath at hpath
      rw [hl] at hpath
      exact hpath
    obtain ⟨path2, hres, _, hchain⟩ :=
      climb_retraces hlinks (descend_descends fuel root l hl) fuel [] path hclimb
    simp at hres
    subst hres
    intro i a b ha hb
    exact firstChildAt_isFirst _ _ (chain_index path hchain i a b ha hb)

/-- C16 on the tree of `echo foo ba` at offset 4, the boundary shared by the
compound `echo` = [0, 4] and the separator [4, 5]: the earlier sibling is
taken (the path is [5, 4, 3, 2, 1, 0]). -/
theorem findNodePath_takes_first_child_witness :
    ∃ path, findNodePath echoTree 0 4 6 = .ok path ∧
      ∀ (i : Nat) (a b : Node), path[i]? = some a → path[i + 1]? = some b →
        IsFirstChildAt echoTree 4 b a :=
  findNodePath_takes_first_child echoTree 0 4 5 6 echoTree_height echoTree_links (by decide)

/-- C18: on a finite tree of depth at most `h` whose parent links agree with
its child lists, `findNodePath root p` terminates for every offset `p`: each
of its two loops runs at most `h + 1` times (any fuel above `h` gives the same
returned path), and the path has at most `h + 1` elements. -/
theorem findNodePath_terminates (T : Tree) (root : Node) (p : Int) (h : Nat)
    (hfin : HeightLE T h root) (hlinks : ParentLinksAgree T root) :
    ∃ path, (∀ fuel, h < fuel → findNodePath T root p fuel = .ok path) ∧
      path.length ≤ h + 1 := by
  obtain ⟨path, hpath, hlen, _⟩ :=
    findNodePath_ok (p := p) hfin hlinks (Nat.lt_succ_self h)
  exact ⟨path, fun fuel hf => findNodePath_fuel_mono hf hpath, hlen⟩

/-- C18 on the sample tree (depth 2) at offset 1. -/
theorem findNodePath_terminates_witness :
    ∃ path, (∀ fuel, 2 < fuel → findNodePath sampleTree 0 1 fuel = .ok path) ∧
      path.length ≤ 2 + 1 :=
  findNodePath_terminates sampleTree 0 1 2 sampleTree_height sampleTree_links

/-! ## Further claims about the matchers -/

theorem simplePrimaryMatcher_match_fail (T : Tree) (m : simplePrimaryMatcher) (ns : List Node)
    (hfail : (simplePrimaryMatcher_match T m ns).1.2 = false) :
    simplePrimaryMatcher_match T m ns = (([], false), m) := by
  match ns with
  | [] => rfl
  | [_] => rfl
  | [_, _] => rfl
  | n0 :: n1 :: n2 :: rest =>
    rw [simplePrimaryMatcher_match_cons3] at hfail ⊢
    split at hfail
    · cases hfail
    · rename_i hc
      rw [if_neg hc]

/-- C17: when the simple-primary-expression matcher fails on a path, by a
structural mismatch or because the evaluator reports not-ok, its side outputs
`primary`, `compound` and `s` are as they were before the call: the receiver
is unchanged, and so is the memory when the call goes through the `matcher`
interface. -/
theorem simplePrimaryMatcher_match_fail_keeps (T : Tree) (m : simplePrimaryMatcher)
    (ns : List Node) (hfail : (simplePrimaryMatcher_match T m ns).1.2 = false) :
    (simplePrimaryMatcher_match T m ns).2 = m ∧
      (simplePrimaryMatcher_match T m ns).2.primary = m.primary ∧
      (simplePrimaryMatcher_match T m ns).2.compound = m.compound ∧
      (simplePrimaryMatcher_match T m ns).2.s = m.s ∧
      ∀ (mem : Memory) (ptr : Nat), mem.spm ptr = m →
        (matcher_match T (matcher.simplePrimary ptr) ns mem).2 = mem := by
  have h := simplePrimaryMatcher_match_fail T m ns hfail
  refine ⟨by rw [h], by rw [h], by rw [h], by rw [h], ?_⟩
  intro mem ptr hm
  subst hm
  cases mem with
  | mk slot spm =>
    simp only [matcher_match]
    rw [h]
    simp

/-- C17 on the path of `echo foo ba` with an evaluator that evaluates nothing
and a receiver that holds outputs of an earlier match. -/
theorem simplePrimaryMatcher_match_fail_keeps_witness :
    (simplePrimaryMatcher_match echoTree ⟨noEval, "old", some 3, some 5⟩ echoPath).2 =
        ⟨noEval, "old", some 3, some 5⟩ ∧
      (simplePrimaryMatcher_match echoTree ⟨noEval, "old", some 3, some 5⟩ echoPath).2.primary =
        some 5 ∧
      (simplePrimaryMatcher_match echoTree ⟨noEval, "old", some 3, some 5⟩ echoPath).2.compound =
        some 3 ∧
      (simplePrimaryMatcher_match echoTree ⟨noEval, "old", some 3, some 5⟩ echoPath).2.s =
        "old" ∧
      ∀ (mem : Memory) (ptr : Nat), mem.spm ptr = ⟨noEval, "old", some 3, some 5⟩ →
        (matcher_match echoTree (matcher.simplePrimary ptr) echoPath mem).2 = mem :=
  simplePrimaryMatcher_match_fail_keeps echoTree ⟨noEval, "old", some 3, some 5⟩ echoPath rfl

/-- C19 fails as stated: the one-element path `[13]` (what `findNodePath`
returns when asked for the path up to the Primary 13 of `ba` itself) satisfies
the parent-chain invariant and starts with a Primary, the matcher fails on it
for want of three elements, yet `primaryInSimpleCompound` follows the parent
links of the tree and returns the compound 11 with the value `ba`. -/
theorem simplePrimary_agreement_counterexample :
    findNodePath echoTree 13 11 1 = .ok [13] ∧ ParentChain echoTree [13] ∧
      (echoTree 13).kind = Kind.Primary ∧
      (simplePrimaryMatcher_match echoTree (simplePrimaryExpr echoEval) [13]).1.2 = false ∧
      primaryInSimpleCompound echoTree 13 echoEval = (some 11, "ba") := by
  refine ⟨rfl, ?_, rfl, rfl, rfl⟩
  intro i a b _ hb
  simp at hb

/-- C19, amended: for every path `ns` that satisfies the parent-chain
invariant, starts with a Primary node `pn`, and has at least three elements or
ends at a node without parent (the tree root), the simple-primary-expression
matcher succeeds on `ns` if and only if `primaryInSimpleCompound(pn, ev)`
returns a compound, and then both yield the same compound node and the same
string. -/
theorem simplePrimary_agreement (T : Tree) (m : simplePrimaryMatcher) (ns : List Node)
    (pn : Node) (hchain : ParentChain T ns) (hhead : ns.head? = some pn)
    (hkind : (T pn).kind = Kind.Primary)
    (hend : 3 ≤ ns.length ∨ ∃ r, ns.getLast? = some r ∧ Parent T r = none) :
    ((simplePrimaryMatcher_match T m ns).1.2 = true ↔
        ∃ c, (primaryInSimpleCompound T pn m.ev).1 = some c) ∧
      ((simplePrimaryMatcher_match T m ns).1.2 = true →
        (simplePrimaryMatcher_match T m ns).2.compound = (primaryInSimpleCompound T pn m.ev).1 ∧
          (simplePrimaryMatcher_match T m ns).2.s = (primaryInSimpleCompound T pn m.ev).2) := by
  match ns, hchain, hhead, hend with
  | [], _, hhead, _ => cases hhead
  | [n0], _, hhead, hend =>
    cases hhead
    rcases hend with hlen | ⟨r, hr, hpar⟩
    · simp at hlen
    · have hr2 : pn = r := by simpa using hr
      subst hr2
      rw [primaryInSimpleCompound_none T pn m.ev hpar,
        simplePrimaryMatcher_match_short T m [pn] (by simp)]
      simp
  | [n0, n1], hchain, hhead, hend =>
    cases hhead
    have h01 : Parent T pn = some n1 := hchain 0 pn n1 (by simp) (by simp)
    rcases hend with hlen | ⟨r, hr, hpar⟩
    · simp at hlen
    · have hr2 : n1 = r := by simpa using hr
      subst hr2
      rw [primaryInSimpleCompound_some_none T pn n1 m.ev h01 hpar,
        simplePrimaryMatcher_match_short T m [pn, n1] (by simp)]
      simp
  | n0 :: n1 :: n2 :: rest, hchain, hhead, _ =>
    cases hhead
    have h01 : Parent T pn = some n1 := hchain 0 pn n1 (by simp) (by simp)
    have h12 : Parent T n1 = some n2 := hchain 1 n1 n2 (by simp) (by simp)
    rw [primaryInSimpleCompound_some_some T pn n1 n2 m.ev h01 h12,
      simplePrimaryMatcher_match_cons3]
    by_cases hc : (T n1).kind = Kind.Indexing ∧ (T n2).kind = Kind.Compound ∧
        (m.ev.PurelyEvalPartialCompound n2 (T n1).To).2 = true
    · rw [if_pos hc, if_pos ⟨hkind, hc⟩]
      exact ⟨⟨fun _ => ⟨n2, rfl⟩, fun _ => rfl⟩, fun _ => ⟨rfl, rfl⟩⟩
    · rw [if_neg hc, if_neg (fun h => hc h.2)]
      constructor
      · constructor
        · intro h
          cases h
        · rintro ⟨c, h⟩
          cases h
      · intro h
        cases h

theorem echoPath_chain : ParentChain echoTree echoPath :=
  parentChain_of_chain echoPath (by simp [echoPath, Parent, echoTree])

/-- C19, amended, on the path of `echo foo ba`, which both has more than three
elements and ends at the Chunk root: the matcher and the lookup agree on
compound 11 and the value `ba`. -/
theorem simplePrimary_agreement_witness :
    ((simplePrimaryMatcher_match echoTree (simplePrimaryExpr echoEval) echoPath).1.2 = true ↔
        ∃ c, (primaryInSimpleCompound echoTree 13 (simplePrimaryExpr echoEval).ev).1 = some c) ∧
      ((simplePrimaryMatcher_match echoTree (simplePrimaryExpr echoEval) echoPath).1.2 = true →
        (simplePrimaryMatcher_match echoTree (simplePrimaryExpr echoEval) echoPath).2.compound =
            (primaryInSimpleCompound echoTree 13 (simplePrimaryExpr echoEval).ev).1 ∧
          (simplePrimaryMatcher_match echoTree (simplePrimaryExpr echoEval) echoPath).2.s =
            (primaryInSimpleCompound echoTree 13 (simplePrimaryExpr echoEval).ev).2) :=
  simplePrimary_agreement echoTree (simplePrimaryExpr echoEval) echoPath 13
    echoPath_chain rfl rfl (Or.inl (by decide))

theorem matcher_match_nil_fails (T : Tree) (m : matcher) (mem : Memory) :
    (matcher_match T m [] mem).1.2 = false := by
  cases m <;> rfl

/-- C20: `nodePath.match` called with an empty list of matchers reports
success on every path, the empty path included, and leaves the memory as it
was; so a successful match does not by itself imply that the path is
non-empty. (With at least one matcher it fails on the empty path.) -/
theorem nodePath_match_no_matchers (T : Tree) (P : nodePath) (mem : Memory) :
    nodePath_match T P [] mem = (true, mem) ∧
      nodePath_match T [] [] mem = (true, mem) ∧
      ∀ (m : matcher) (ms : List matcher), (nodePath_match T [] (m :: ms) mem).1 = false := by
  refine ⟨rfl, rfl, ?_⟩
  intro m ms
  rw [nodePath_match_cons_fail (matcher_match_nil_fails T m mem)]

/-! ## When the path is empty -/

theorem noGapAt_under {T : Tree} {p : Int} {a b : Node} (hab : Under T a b)
    (h : NoGapAt T a p) : NoGapAt T b p :=
  fun n hn => h n (under_trans hab hn)

/-- When the children leave no gap at `p`, the descent from a node that
contains `p` stops at a leaf, whichever of two tied siblings it takes. -/
theorem descend_no_gap {T : Tree} {p : Int} :
    ∀ (h fuel : Nat) (n : Node), HeightLE T h n → h < fuel → NoGapAt T n p →
      contains T n p → ∃ l, descend T p fuel n = .ok (some l)
  | _, 0, _, _, hf, _, _ => absurd hf (Nat.not_lt_zero _)
  | h, fuel + 1, n, hn, hf, hgap, hp => by
    unfold descend
    by_cases hlen : (Children T n).length > 0
    · rw [if_pos hlen]
      have hne : Children T n ≠ [] := by
        intro h0
        rw [h0] at hlen
        exact absurd hlen (by decide)
      obtain ⟨c, hc, hcp⟩ := hgap n Relation.ReflTransGen.refl hne hp
      cases hfirst : firstChildAt T p (Children T n) with
      | none => exact absurd hcp (firstChildAt_none hfirst c hc)
      | some ch =>
        have hch := firstChildAt_some hfirst
        cases h with
        | zero =>
          have h0 : Children T n = [] := hn
          exact absurd h0 hne
        | succ h =>
          exact descend_no_gap h fuel ch (hn ch hch.1) (Nat.lt_of_succ_lt_succ hf)
            (noGapAt_under (under_child hch.1) hgap) hch.2
    · rw [if_neg hlen]
      exact ⟨n, rfl⟩

theorem echoTree_nested_at (n : Node) :
    ∀ c ∈ Children echoTree n,
      (echoTree n).From ≤ (echoTree c).From ∧ (echoTree c).To ≤ (echoTree n).To := by
  match n with
  | 0 => decide
  | 1 => decide
  | 2 => decide
  | 3 => decide
  | 4 => decide
  | 5 => decide
  | 6 => decide
  | 7 => decide
  | 8 => decide
  | 9 => decide
  | 10 => decide
  | 11 => decide
  | 12 => decide
  | 13 => decide
  | n + 14 =>
    intro c hc
    simp [Children, echoTree] at hc

theorem echoTree_nested : RangesNested echoTree 0 :=
  fun n c _ hc => echoTree_nested_at n c hc

theorem echoTree_no_gap_at_4 : NoGapAt echoTree 0 4 := by
  intro n _ hne hp
  match n with
  | 0 => decide
  | 1 => decide
  | 2 => decide
  | 3 => decide
  | 4 => decide
  | 5 => exact absurd rfl hne
  | 6 => exact absurd rfl hne
  | 7 => exact absurd hp (by decide)
  | 8 => exact absurd hp (by decide)
  | 9 => exact absurd rfl hne
  | 10 => exact absurd rfl hne
  | 11 => exact absurd hp (by decide)
  | 12 => exact absurd hp (by decide)
  | 13 => exact absurd rfl hne
  | n + 14 => exact absurd rfl hne

/-- Two siblings of the tree of `echo foo ba` both contain offset 4: the
compound `echo` = [0, 4] and the separator [4, 5]. -/
theorem echoTree_tie_at_4 : ¬ AtMostOneChildAt echoTree 0 4 := by
  intro h
  have h2 := h 2 (Relation.ReflTransGen.tail
    (Relation.ReflTransGen.single (show 1 ∈ Children echoTree 0 by decide))
    (show 2 ∈ Children echoTree 1 by decide))
  have h3 : (Children echoTree 2) = [3, 6, 7, 10, 11] := rfl
  rw [h3, List.pairwise_cons] at h2
  exact h2.1 6 (by decide) (by decide)

/-- In a tree that has both a gap inside a node and two siblings that share a
boundary at the gap, the descent can miss a leaf: in the sample tree, offset 4
is contained in leaf 2 = [4, 8], but the descent takes the earlier sibling
1 = [0, 4], finds no child of it at 4 and returns the empty path. -/
theorem sampleTree_gap_and_tie :
    (∃ L, Under sampleTree 0 L ∧ IsLeaf sampleTree L ∧ contains sampleTree L 4) ∧
      ∀ fuel, 2 < fuel → findNodePath sampleTree 0 4 fuel = .ok [] := by
  refine ⟨⟨2, sampleTree_under_2, by decide, by decide⟩, ?_⟩
  intro fuel hf
  exact @findNodePath_fuel_mono sampleTree 0 4 3 fuel [] hf rfl

/-- C4 fails as stated: in the tree of an empty document the root has no
children; offset 5 is contained in no leaf under it, yet `findNodePath`
returns the non-empty path `[root]`, with any fuel. -/
theorem findNodePath_empty_iff_counterexample :
    (¬ ∃ L, Under emptyDoc 0 L ∧ IsLeaf emptyDoc L ∧ contains emptyDoc L 5) ∧
      (∀ fuel, 0 < fuel → findNodePath emptyDoc 0 5 fuel = .ok [0]) ∧
      ([0] : nodePath) ≠ [] := by
  refine ⟨?_, ?_, by decide⟩
  · rintro ⟨L, _, _, hc⟩
    have h5 : (5 : Int) ≤ 0 := hc.2
    exact absurd h5 (by decide)
  · intro fuel hf
    exact @findNodePath_fuel_mono emptyDoc 0 5 1 fuel [0] hf rfl

/-- C4, amended: on a finite tree with agreeing parent links and nested ranges
whose root has at least one child, `findNodePath root p` returns the empty
path exactly when `p` is not contained (`From <= p <= To`) in any leaf under
`root`. The tree is one whose children leave no gap at `p` (two siblings may
both contain `p`, as at a token boundary), or one in which no two siblings
both contain `p` (gaps allowed). -/
theorem findNodePath_empty_iff (T : Tree) (root : Node) (p : Int) (h fuel : Nat)
    (hfin : HeightLE T h root) (hlinks : ParentLinksAgree T root)
    (hnest : RangesNested T root)
    (hshape : NoGapAt T root p ∨ AtMostOneChildAt T root p)
    (hroot : Children T root ≠ []) (hf : h < fuel) :
    ∃ path, findNodePath T root p fuel = .ok path ∧
      (path = [] ↔ ¬ ∃ L, Under T root L ∧ IsLeaf T L ∧ contains T L p) := by
  obtain ⟨path, hpath, _, hcase⟩ := findNodePath_ok (p := p) hfin hlinks hf
  refine ⟨path, hpath, ?_⟩
  rcases hcase with ⟨hnone, hnil⟩ | ⟨l, hl, hhead, _, _⟩
  · constructor
    · rintro _ ⟨L, hL, hleaf, hc⟩
      rcases hshape with hgap | hone
      · have hr := under_range hnest hL
        obtain ⟨l, hd⟩ := descend_no_gap h fuel root hfin hf hgap
          ⟨le_trans hr.1 hc.1, le_trans hc.2 hr.2⟩
        rw [hd] at hnone
        cases hnone
      · have hd := descend_reaches_at hleaf hc h fuel root hfin hf hnest hone hL
        rw [hd] at hnone
        cases hnone
    · intro _
      exact hnil
  · have hs := descend_some fuel root l hl
    constructor
    · intro hnil
      rw [hnil] at hhead
      cases hhead
    · intro hno
      exact absurd ⟨l, hs.1, hs.2.1, descend_some_contains hroot hl⟩ hno

/-- C4, amended, at offset 4 of the tree of `echo foo ba`, a token boundary
that two siblings share and where the children leave no gap, and at offset 1
of the sample tree, which has gaps but no two siblings containing 1. -/
theorem findNodePath_empty_iff_witness :
    (∃ path, findNodePath echoTree 0 4 6 = .ok path ∧
      (path = [] ↔ ¬ ∃ L, Under echoTree 0 L ∧ IsLeaf echoTree L ∧ contains echoTree L 4)) ∧
    (∃ path, findNodePath sampleTree 0 1 3 = .ok path ∧
      (path = [] ↔
        ¬ ∃ L, Under sampleTree 0 L ∧ IsLeaf sampleTree L ∧ contains sampleTree L 1)) :=
  ⟨findNodePath_empty_iff echoTree 0 4 5 6 echoTree_height echoTree_links echoTree_nested
      (Or.inl echoTree_no_gap_at_4) (by decide) (by decide),
    findNodePath_empty_iff sampleTree 0 1 2 3 sampleTree_height sampleTree_links
      sampleTree_nested (Or.inr sampleTree_one_child_at_1) (by decide) (by decide)⟩

end Elvish
